import Mathlib

/-!
# Verification of the docsmith conversion pipeline

Shallow embedding of the `tidy-css` decorator plugin, the `rtf-to-html`
pre-handler plugin and the RTF route's content-type parser, together with
proofs of the spec's testable properties.

Strings are modelled as Lean `String`s; the JavaScript string operations the
source uses (`trim`, `split`, global `replace`, the cssesc escaper) are
implemented over the underlying character lists with JS semantics.
-/

namespace Docsmith

/-! ## JS string primitives -/

/-- JS whitespace for `String.prototype.trim` (ASCII part; the strings in
scope contain no exotic Unicode whitespace). -/
def isJsWs (c : Char) : Bool :=
  c = ' ' || c = '\t' || c = '\n' || c = '\r' || c = '\x0b' || c = '\x0c'

def trimLeftL : List Char → List Char
  | [] => []
  | c :: cs => if isJsWs c then trimLeftL cs else c :: cs

def trimRightL (cs : List Char) : List Char :=
  (trimLeftL cs.reverse).reverse

def trimL (cs : List Char) : List Char :=
  trimRightL (trimLeftL cs)

/-- JS `String.prototype.trim`. -/
def jsTrim (s : String) : String := ⟨trimL s.data⟩

def splitCharAux (sep : Char) : List Char → List Char → List (List Char)
  | [], acc => [acc.reverse]
  | c :: cs, acc =>
    if c = sep then acc.reverse :: splitCharAux sep cs []
    else splitCharAux sep cs (c :: acc)

/-- JS `String.prototype.split` with a one-character separator: splits at
every occurrence, with no awareness of quoting. -/
def jsSplit (sep : Char) (s : String) : List String :=
  (splitCharAux sep s.data []).map fun l => ⟨l⟩

/-- JS `Array.prototype.join(sep)`. -/
def jsJoin (sep : String) : List String → String
  | [] => ""
  | [a] => a
  | a :: b :: rest => a ++ sep ++ jsJoin sep (b :: rest)

/-- Left-to-right string concatenation (the `innerHTML +=` loop, and the
concatenation of the minified rule texts). -/
def concatL : List String → String
  | [] => ""
  | a :: rest => a ++ concatL rest

/-- The literal sequence a crafted font name could use to close
the style element. -/
def styleClose : List Char := ['<', '/', 's', 't', 'y', 'l', 'e', '>']

/-- JS `font.replace(/<\/style>/gm, "")`: one left-to-right pass removing
each occurrence of the eight-character sequence and resuming the scan after
the removed match. -/
def removeStyleCloseL : List Char → List Char
  | '<' :: '/' :: 's' :: 't' :: 'y' :: 'l' :: 'e' :: '>' :: rest =>
    removeStyleCloseL rest
  | c :: cs => c :: removeStyleCloseL cs
  | [] => []

/-- Substring occurrence test (used only to state properties). -/
def containsSeqL (pat : List Char) : List Char → Bool
  | [] => pat.isEmpty
  | c :: cs => pat.isPrefixOf (c :: cs) || containsSeqL pat cs

def containsSeq (pat s : String) : Bool := containsSeqL pat.data s.data

/-! ## The cssesc escaper -/

def cssEscChar (c : Char) : List Char :=
  if c = '"' || c = '\\' then ['\\', c] else [c]

/-- The `cssesc` library called with `quotes: "double", wrap: true` on the
printable-ASCII strings in scope: the result is wrapped in double quotes,
with every inner double quote and backslash backslash-escaped; all other
printable characters pass through unchanged. -/
def cssEsc (s : String) : String :=
  ⟨'"' :: (s.data.map cssEscChar).flatten ++ ['"']⟩

/-! ## tidy-css: font-family handling (part_000 lines 74-91) -/

/-- The regex test `/[^a-zA-Z-]+/.test(s)`: true iff some character is
neither an ASCII letter nor a hyphen. -/
def testNonAlpha (s : String) : Bool :=
  s.data.any fun c => !(c.isAlpha || c = '-')

/-- Per-name processing inside the `fonts.map` callback: a trimmed name with
any character outside `[A-Za-z-]` has the `</style>` sequence removed, is
trimmed and is escaped and double-quoted; otherwise the trimmed name is used
as is. -/
def parseFont (font : String) : String :=
  if testNonAlpha (jsTrim font) then
    cssEsc (jsTrim ⟨removeStyleCloseL font.data⟩)
  else jsTrim font

/-- `styleRule.style["font-family"].split(",")` mapped through `parseFont`
and rejoined with `", "`. -/
def parseFontFamily (v : String) : String :=
  jsJoin ", " ((jsSplit ',' v).map parseFont)

/-! ## CSSOM: the stylesheet model -/

/-- A parsed style rule: `{selector, ordered property→value declarations}`
(the spec's StyleSheetModel entry). -/
structure CSSRule where
  selectorText : String
  decls : List (String × String)
deriving DecidableEq, Inhabited

/-- CSSOM property read: `style["font-family"]` is falsy when the property
is absent or empty; we return `""` in the absent case so the source's
truthiness checks become `≠ ""`. -/
def getProp (ds : List (String × String)) (nm : String) : String :=
  match ds.find? (fun d => d.1 == nm) with
  | some d => d.2
  | none => ""

/-- CSSOM `style.setProperty`: an existing property is updated in place,
a new one is appended. -/
def setProperty (ds : List (String × String)) (nm v : String) :
    List (String × String) :=
  if ds.any (fun d => d.1 == nm) then
    ds.map fun d => if d.1 == nm then (nm, v) else d
  else ds ++ [(nm, v)]

/-! ### CSSOM.parse, as a character-at-a-time state machine

`CSSOM.parse` walks the text once with a parse state; this is its
restriction to what the converter output in scope contains: plain style
rules (no at-rules, no CSS comments), with single- or double-quoted strings
recognised inside declaration values (backslash-escaped quotes included).
Unterminated trailing input is dropped, as CSSOM accepts no rule for it. -/

inductive PState
  | beforeSel | inSel | beforeName | inName | beforeValue | inValue
  | inString (q : Char) | inStringEsc (q : Char)
deriving DecidableEq

structure PAcc where
  rules : List CSSRule
  sel : List Char
  ds : List (String × String)
  nm : List Char
  buf : List Char
deriving DecidableEq

/-- Finish the pending declaration: `setProperty(name, value.trim())`. -/
def endDecl (a : PAcc) : PAcc :=
  { a with ds := setProperty a.ds ⟨a.nm⟩ ⟨trimL a.buf⟩, nm := [], buf := [] }

/-- Close the pending rule and push it. -/
def closeRule (a : PAcc) : PAcc :=
  { rules := a.rules ++ [⟨⟨a.sel⟩, a.ds⟩], sel := [], ds := [], nm := [], buf := [] }

def cssStep : PState → PAcc → Char → PState × PAcc
  | .beforeSel, a, c =>
    if isJsWs c then (.beforeSel, a)
    else (.inSel, { a with buf := [c] })
  | .inSel, a, c =>
    if c = '{' then (.beforeName, { a with sel := trimL a.buf, buf := [] })
    else (.inSel, { a with buf := a.buf ++ [c] })
  | .beforeName, a, c =>
    if isJsWs c || c = ';' then (.beforeName, a)
    else if c = '}' then (.beforeSel, closeRule a)
    else (.inName, { a with buf := [c] })
  | .inName, a, c =>
    if c = ':' then (.beforeValue, { a with nm := trimL a.buf, buf := [] })
    else if c = '}' then (.beforeSel, closeRule { a with buf := [] })
    else (.inName, { a with buf := a.buf ++ [c] })
  | .beforeValue, a, c =>
    if isJsWs c then (.beforeValue, a)
    else if c = '"' || c = '\'' then (.inString c, { a with buf := [c] })
    else if c = ';' then (.beforeName, endDecl a)
    else if c = '}' then (.beforeSel, closeRule (endDecl a))
    else (.inValue, { a with buf := [c] })
  | .inValue, a, c =>
    if c = ';' then (.beforeName, endDecl a)
    else if c = '}' then (.beforeSel, closeRule (endDecl a))
    else if c = '"' || c = '\'' then (.inString c, { a with buf := a.buf ++ [c] })
    else (.inValue, { a with buf := a.buf ++ [c] })
  | .inString q, a, c =>
    if c = '\\' then (.inStringEsc q, { a with buf := a.buf ++ [c] })
    else if c = q then (.inValue, { a with buf := a.buf ++ [c] })
    else (.inString q, { a with buf := a.buf ++ [c] })
  | .inStringEsc q, a, c => (.inString q, { a with buf := a.buf ++ [c] })

def cssParseLoop : PState → PAcc → List Char → List CSSRule
  | _, a, [] => a.rules
  | st, a, c :: cs =>
    let p := cssStep st a c
    cssParseLoop p.1 p.2 cs

/-- `CSSOM.parse` restricted to plain style rules. -/
def cssParse (s : String) : List CSSRule :=
  cssParseLoop .beforeSel ⟨[], [], [], [], []⟩ s.data

/-! ## The per-rule transform (part_000 lines 60-108) -/

/-- Lines 62-67: replace the default font when one is configured and the
rule declares `font-family` or exactly one style element exists. -/
def applyFontOverride (newFonts : Option String) (numStyles : Nat)
    (ds : List (String × String)) : List (String × String) :=
  match newFonts with
  | some f =>
    if getProp ds "font-family" ≠ "" ∨ numStyles = 1 then
      setProperty ds "font-family" f
    else ds
  | none => ds

/-- Lines 74-91: escape and quote each declared font name. -/
def applyFontEscaping (ds : List (String × String)) :
    List (String × String) :=
  if getProp ds "font-family" ≠ "" then
    setProperty ds "font-family" (parseFontFamily (getProp ds "font-family"))
  else ds

/-- Lines 98-108: `page-break-inside: avoid` and the background-color
override on rules whose selector starts with `div`. -/
def applyDivRules (newBackgroundColor : Option String) (sel : String)
    (ds : List (String × String)) : List (String × String) :=
  if sel.data.take 3 = ['d', 'i', 'v'] then
    let dA := setProperty ds "page-break-inside" "avoid"
    match newBackgroundColor with
    | some b => setProperty dA "background-color" b
    | none => dA
  else ds

/-- The body of the `styleObj.cssRules.forEach` callback, the three steps
composed. -/
def transformRule (newFonts newBackgroundColor : Option String)
    (numStyles : Nat) (r : CSSRule) : CSSRule :=
  ⟨r.selectorText,
    applyDivRules newBackgroundColor r.selectorText
      (applyFontEscaping (applyFontOverride newFonts numStyles r.decls))⟩

/-! ## CleanCSS minification of the serialized model

`styleObj.toString()` followed by `cssCleaner.minify(...).styles`
(clean-css at its default level-1 optimizations, `compatibility: "ie7"`),
restricted to the rules this pipeline produces: whitespace between tokens is
dropped, whitespace after a comma in a value is dropped (quoted strings are
left verbatim), the trailing semicolon goes, and a rule without declarations
is removed. -/

inductive MVState | top | afterComma | str | strEsc
deriving DecidableEq

def mvStep : MVState → Char → MVState × List Char
  | .top, c =>
    if c = ',' then (.afterComma, [c])
    else if c = '"' then (.str, [c])
    else (.top, [c])
  | .afterComma, c =>
    if isJsWs c then (.afterComma, [])
    else if c = ',' then (.afterComma, [c])
    else if c = '"' then (.str, [c])
    else (.top, [c])
  | .str, c =>
    if c = '\\' then (.strEsc, [c])
    else if c = '"' then (.top, [c])
    else (.str, [c])
  | .strEsc, c => (.str, [c])

def mvRun : MVState → List Char → List Char
  | _, [] => []
  | st, c :: cs =>
    let p := mvStep st c
    p.2 ++ mvRun p.1 cs

/-- Minified declaration value. -/
def minVal (v : String) : String := ⟨mvRun .top v.data⟩

def minDecl (d : String × String) : String :=
  d.1 ++ ":" ++ minVal d.2

/-- A rule's minified text; a declaration-free rule is removed. -/
def minRule (r : CSSRule) : Option String :=
  if r.decls.isEmpty then none
  else some (r.selectorText ++ "\x7b" ++
    jsJoin ";" (r.decls.map minDecl) ++ "\x7d")

/-- Minified serialization of the whole stylesheet model. -/
def minSer (rules : List CSSRule) : String :=
  concatL (rules.filterMap minRule)

/-- A rule with each declaration value minified — what parsing a rule's
minified text back yields. -/
def mvRule (r : CSSRule) : CSSRule :=
  ⟨r.selectorText, r.decls.map fun d => (d.1, minVal d.2)⟩

/-! ## The tidyCss entry point (part_000 lines 25-121) -/

/-- The JSDOM document, restricted to what `tidyCss` observes and edits: the
text contents of the `<style>` elements in document order, and the rest of
the document, which the transform carries through unchanged. The output's
single combined style element is the one `appendChild`-ed to the head. -/
structure HtmlDoc where
  styles : List String
  rest : String
deriving DecidableEq

/-- The function config: `options.fonts` / `options.backgroundColor`. -/
structure TidyOpts where
  fonts : Option String
  backgroundColor : Option String
deriving DecidableEq

/-- JS truthiness of an optional string option: absent and `""` are falsy. -/
def truthy : Option String → Option String
  | some s => if s = "" then none else some s
  | none => none

/-- `tidyCss(html, options)`: synthesize `div {}` when overrides are
requested but no style element exists; concatenate every style element's
text; parse; transform each rule; minify; return the document with the one
combined style element. `numStyles` is the length of the (re-queried)
static `querySelectorAll("style")` NodeList. -/
def tidyCss (doc : HtmlDoc) (options : TidyOpts) : HtmlDoc :=
  let newBackgroundColor := truthy options.backgroundColor
  let newFonts := truthy options.fonts
  let styles :=
    if doc.styles.isEmpty && (newFonts.isSome || newBackgroundColor.isSome)
    then ["div \x7b\x7d"] else doc.styles
  let combined := concatL styles
  let rules :=
    (cssParse combined).map
      (transformRule newFonts newBackgroundColor styles.length)
  { styles := [minSer rules], rest := doc.rest }

/-! ## A tidy-stable class of stylesheets

The idempotence property holds on documents whose parsed rules stay inside
the plain fragment of CSS that the pipeline's own output also stays in: no
quoting is ever needed, so the second run re-derives exactly the first
run's text. The predicates are decidable so membership can be checked by
evaluation. -/

/-- A font name needing no quoting: ASCII letters and hyphens only. -/
def plainChar (c : Char) : Bool := c.isAlpha || c = '-'

/-- Selector characters in the plain fragment (no whitespace, no braces,
no quotes). -/
def selChar (c : Char) : Bool :=
  c.isAlpha || c.isDigit || c = '.' || c = '#' || c = '-' || c = '*'

/-- Declaration-value characters in the plain fragment (no comma, quote,
semicolon or brace). -/
def valChar (c : Char) : Bool :=
  c.isAlpha || c.isDigit || c = '-' || c = '#' || c = '%' || c = '.' ||
  c = ' '

/-- A safe declaration: plain nonempty property name; for `font-family` a
comma-separated list of nonempty plain names; otherwise a nonempty,
trimmed, single-spaced value over `valChar`. -/
def safeDecl (d : String × String) : Bool :=
  (!d.1.data.isEmpty) && d.1.data.all plainChar &&
  (if d.1 == "font-family" then
    (jsSplit ',' d.2).all fun f =>
      (!(jsTrim f).data.isEmpty) && (jsTrim f).data.all plainChar
  else
    (!d.2.data.isEmpty) && d.2.data.all valChar &&
    trimL d.2.data == d.2.data && !containsSeq "  " d.2)

/-- A safe rule: nonempty plain selector, distinct property names, safe
declarations. -/
def safeRule (r : CSSRule) : Bool :=
  (!r.selectorText.data.isEmpty) && r.selectorText.data.all selChar &&
  decide (r.decls.map Prod.fst).Nodup && r.decls.all safeDecl

/-- A safe stylesheet model. -/
def safeRules (rules : List CSSRule) : Bool := rules.all safeRule

/-- A minified declaration value that parses back verbatim: nonempty,
trimmed, and free of the characters that end a declaration or open a
string. -/
def minValSafe (u : String) : Prop :=
  u.data ≠ [] ∧ trimL u.data = u.data ∧
  ∀ c ∈ u.data, c ≠ ';' ∧ c ≠ '}' ∧ c ≠ '"' ∧ c ≠ '\''

/-- A declaration whose minified text parses back to the property paired
with its minified value. -/
def minDeclSafe (d : String × String) : Prop :=
  d.1.data ≠ [] ∧ (∀ c ∈ d.1.data, plainChar c = true) ∧
  minValSafe (minVal d.2)

/-- A rule whose minified text parses back to `mvRule` of it. -/
def minRuleSafe (r : CSSRule) : Prop :=
  r.selectorText.data ≠ [] ∧ (∀ c ∈ r.selectorText.data, selChar c = true) ∧
  r.decls ≠ [] ∧ (r.decls.map Prod.fst).Nodup ∧ ∀ d ∈ r.decls, minDeclSafe d

/-! ## rtf-to-html plugin (part_001) and the RTF route (src/routes/rtf/html)

The temporary directory is modelled as the list of file paths it currently
holds; each request is a run through the fastify 4.x lifecycle the plugins
hook into: content-type parser, `preHandler` (staging + conversion),
handler, `onSend` (cleanup), socket send. -/

/-- The set of files in the temp directory. -/
abbrev FS := List String

/-- `path.joinSafe(directory, name)` on an already-normalized directory. -/
def joinSafe (dir nm : String) : String := dir ++ "/" ++ nm

/-- Name-prefix test on paths (character-level `startsWith`). -/
def strStartsWith (pre s : String) : Bool := pre.data.isPrefixOf s.data

/-- `req.conversionResults.docLocation` as set by the preHandler. -/
structure DocLocation where
  directory : String
  id : String
deriving DecidableEq

/-- `fs.writeFile`: the staged path is now present. -/
def writeFile (fs : FS) (p : String) : FS :=
  if fs.contains p then fs else fs ++ [p]

/-- ``glob.sync(`${path.joinSafe(directory, id)}*`)``: every existing path
whose name starts with the workspace's `directory/id`. -/
def globSync (fs : FS) (pat : String) : List String :=
  fs.filter fun p => strStartsWith pat p

/-- `Promise.all(files.map((file) => fs.unlink(file)))`: all the listed
files are gone afterwards; a path not present is simply not there to
remove. -/
def unlinkAll (fs : FS) (files : List String) : FS :=
  fs.filter fun p => !files.contains p

/-- The `onSend` hook body: when a docLocation was recorded, glob every path
with the `directory/id` name and delete them all; otherwise leave
the directory alone. -/
def onSendCleanup (fs : FS) (loc : Option DocLocation) : FS :=
  match loc with
  | some l => unlinkAll fs (globSync fs (joinSafe l.directory l.id))
  | none => fs

/-- The RTF magic number `{\rtf`, the signature the `file-type` library
recognises `application/rtf` by (spec §6 sniffing table). -/
def rtfMagic : List Nat := [0x7B, 0x5C, 0x72, 0x74, 0x66]

/-- `fromBuffer` of the `file-type` library, at the boundary this route
uses: a buffer carrying the RTF signature sniffs as `application/rtf`; any
other buffer (empty, absent, or carrying another family's signature) yields
no RTF mime — the route only compares the result against
`"application/rtf"`, so every such buffer is treated alike. -/
def fromBufferMime (body : List Nat) : Option String :=
  if rtfMagic.isPrefixOf body then some "application/rtf" else none

inductive ReqError
  | unsupportedMediaType
  | badRequest
deriving DecidableEq

/-- The route's `addContentTypeParser` callback: sniff the payload's magic
numbers and fail with `UnsupportedMediaType` unless it is RTF. -/
def contentTypeParser (body : List Nat) : Except ReqError (List Nat) :=
  if fromBufferMime body = some "application/rtf" then .ok body
  else .error .unsupportedMediaType

/-- Final state of one request against the temp directory. -/
structure ReqResult where
  fs : FS
  status : Nat
deriving DecidableEq

/-- One request through the pipeline: the content-type parser rejects
non-RTF bodies with 415 before any staging; otherwise the preHandler stages
`directory/id.rtf` and records the docLocation, conversion succeeds (200)
or fails (400), and the `onSend` hook — which fastify also fires on a
request cancelled mid-flight — removes every file with the workspace's
name. -/
def processRequest (fs0 : FS) (dir id : String) (body : List Nat)
    (convertOk _cancelled : Bool) : ReqResult :=
  match contentTypeParser body with
  | .error _ => { fs := onSendCleanup fs0 none, status := 415 }
  | .ok _ =>
    let tempFile := joinSafe dir (id ++ ".rtf")
    let fs1 := writeFile fs0 tempFile
    let loc : DocLocation := ⟨dir, id⟩
    { fs := onSendCleanup fs1 (some loc),
      status := if convertOk then 200 else 400 }

/-! ### The request's event order

fastify 4.x hook order for this route: content-type parsing, `preHandler`
(staging, conversion), handler, `onSend` hooks, then the payload goes to
the socket. The cleanup sits in the single registered `onSend` hook, so it
runs after the handler has handed the payload off and before the bytes are
written out, also when the client has aborted (the code's reason for using
`onSend` rather than `onResponse`). -/

inductive Event
  | received | sniffRejected | staged | converted | convertFailed
  | payloadHandoff | cleanup | responseSent | aborted
deriving DecidableEq

def requestEvents (sniffOk convertOk cancelled : Bool) : List Event :=
  if !sniffOk then
    [.received, .sniffRejected, .payloadHandoff, .responseSent]
  else
    [.received, .staged] ++
    (if convertOk then [.converted] else [.convertFailed]) ++
    [.payloadHandoff, .cleanup] ++
    (if cancelled then [.aborted] else [.responseSent])

/-! ## Helper lemmas -/

theorem trimLeftL_eq_self {l : List Char} (h : ∀ c ∈ l, isJsWs c = false) :
    trimLeftL l = l := by
  cases l with
  | nil => rfl
  | cons c cs => simp [trimLeftL, h c (by simp)]

theorem trimL_eq_self {l : List Char} (h : ∀ c ∈ l, isJsWs c = false) :
    trimL l = l := by
  unfold trimL trimRightL
  rw [trimLeftL_eq_self h, trimLeftL_eq_self (by intro c hc; exact h c (by simpa using hc))]
  simp

theorem jsTrim_eq_self {s : String} (h : ∀ c ∈ s.data, isJsWs c = false) :
    jsTrim s = s := by
  unfold jsTrim
  rw [trimL_eq_self h]

theorem trimLeftL_cons_head (c : Char) (l : List Char)
    (hc : isJsWs c = false) :
    trimLeftL (c :: l) = c :: l := by
  simp [trimLeftL, hc]

theorem trimLeftL_append_last (xs : List Char) (c : Char)
    (hc : isJsWs c = false) :
    trimLeftL (xs ++ [c]) = trimLeftL xs ++ [c] := by
  induction xs with
  | nil => simp [trimLeftL, hc]
  | cons x xs' ih =>
    by_cases hx : isJsWs x = true
    · simp [trimLeftL, hx, ih]
    · simp only [Bool.not_eq_true] at hx
      simp [trimLeftL, hx]

theorem trimRightL_append_last (xs : List Char) (c : Char)
    (hc : isJsWs c = false) :
    trimRightL (xs ++ [c]) = xs ++ [c] := by
  unfold trimRightL
  rw [List.reverse_append]
  simp only [List.reverse_cons, List.reverse_nil, List.nil_append,
    List.cons_append]
  rw [trimLeftL_cons_head _ _ hc]
  simp

theorem trimRightL_cons_head (c : Char) (l : List Char)
    (hc : isJsWs c = false) :
    trimRightL (c :: l) = c :: trimRightL l := by
  unfold trimRightL
  rw [List.reverse_cons, trimLeftL_append_last _ _ hc]
  simp

theorem trimL_cons_head (c : Char) (l : List Char) (hc : isJsWs c = false) :
    trimL (c :: l) = c :: trimRightL l := by
  unfold trimL
  rw [trimLeftL_cons_head c l hc, trimRightL_cons_head c l hc]

theorem trimL_append_last (l : List Char) (c : Char) (hc : isJsWs c = false) :
    trimL (l ++ [c]) = trimLeftL l ++ [c] := by
  unfold trimL
  rw [trimLeftL_append_last l c hc, trimRightL_append_last _ _ hc]

theorem removeStyleCloseL_cons_ne (c : Char) (cs : List Char) (h : c ≠ '<') :
    removeStyleCloseL (c :: cs) = c :: removeStyleCloseL cs := by
  conv_lhs => rw [removeStyleCloseL.eq_def]
  split
  · rename_i x0 rest heq
    injection heq with h1 h2
    exact absurd h1 h
  · rename_i x0 c' cs' hno heq
    injection heq with h1 h2
    rw [h1, h2]
  · rename_i x0 heq
    cases heq

theorem removeStyleCloseL_eq_self (l : List Char) (h : ∀ c ∈ l, c ≠ '<') :
    removeStyleCloseL l = l := by
  induction l with
  | nil => rfl
  | cons c cs ih =>
    rw [removeStyleCloseL_cons_ne c cs (h c (by simp))]
    rw [ih fun x hx => h x (by simp [hx])]

theorem splitCharAux_no_sep (sep : Char) (l : List Char)
    (h : ∀ c ∈ l, c ≠ sep) :
    ∀ acc, splitCharAux sep l acc = [acc.reverse ++ l] := by
  induction l with
  | nil => intro acc; simp [splitCharAux]
  | cons c cs ih =>
    intro acc
    simp only [splitCharAux, if_neg (h c (by simp))]
    rw [ih (fun x hx => h x (by simp [hx])) (c :: acc)]
    simp

theorem splitCharAux_sep_chunk (sep : Char) (l : List Char)
    (h : ∀ c ∈ l, c ≠ sep) (rest : List Char) :
    ∀ acc, splitCharAux sep (l ++ sep :: rest) acc =
      (acc.reverse ++ l) :: splitCharAux sep rest [] := by
  induction l with
  | nil => intro acc; simp [splitCharAux]
  | cons c cs ih =>
    intro acc
    simp only [List.cons_append, splitCharAux, List.append_eq,
      if_neg (h c (by simp))]
    rw [ih (fun x hx => h x (by simp [hx])) (c :: acc)]
    simp

theorem testNonAlpha_quote_head (l : List Char) :
    testNonAlpha ⟨'"' :: l⟩ = true := by
  simp [testNonAlpha]

theorem parseFont_quoted_head (a : String) (ha : ∀ c ∈ a.data, c ≠ '<') :
    parseFont ("\"" ++ a) = cssEsc (jsTrim ("\"" ++ a)) := by
  unfold parseFont
  have hdata : ("\"" ++ a).data = '"' :: a.data := rfl
  have htrim : jsTrim ("\"" ++ a) = ⟨'"' :: trimRightL a.data⟩ := by
    unfold jsTrim
    rw [hdata, trimL_cons_head _ _ (by decide)]
  have htest : testNonAlpha (jsTrim ("\"" ++ a)) = true := by
    rw [htrim]; exact testNonAlpha_quote_head _
  rw [htest]
  have hstrip : removeStyleCloseL ("\"" ++ a).data = ("\"" ++ a).data := by
    rw [hdata]
    refine removeStyleCloseL_eq_self _ ?_
    intro c hc
    rcases List.mem_cons.mp hc with h | h
    · rw [h]; decide
    · exact ha c h
  rw [hstrip]
  rfl

theorem parseFont_quoted_last (b : String) (hb : ∀ c ∈ b.data, c ≠ '<') :
    parseFont (b ++ "\"") = cssEsc (jsTrim (b ++ "\"")) := by
  unfold parseFont
  have hdata : (b ++ "\"").data = b.data ++ ['"'] := rfl
  have htrim : jsTrim (b ++ "\"") = ⟨trimLeftL b.data ++ ['"']⟩ := by
    unfold jsTrim
    rw [hdata, trimL_append_last _ _ (by decide)]
  have htest : testNonAlpha (jsTrim (b ++ "\"")) = true := by
    rw [htrim]
    simp [testNonAlpha, List.any_append]
  rw [htest]
  have hstrip : removeStyleCloseL (b ++ "\"").data = (b ++ "\"").data := by
    rw [hdata]
    refine removeStyleCloseL_eq_self _ ?_
    intro c hc
    rcases List.mem_append.mp hc with h | h
    · exact hb c h
    · simp at h; rw [h]; decide
  rw [hstrip]
  rfl

theorem isJsWs_eq_false_of_alpha {c : Char} (h : (c.isAlpha || c = '-') = true) :
    isJsWs c = false := by
  by_contra hw
  rw [Bool.not_eq_false] at hw
  simp only [isJsWs, Bool.or_eq_true, decide_eq_true_eq] at hw
  rcases hw with ((((h1 | h1) | h1) | h1) | h1) | h1 <;> subst h1 <;>
    revert h <;> decide

theorem plainChar_ne {c x : Char} (h : plainChar c = true)
    (hx : plainChar x = false) : c ≠ x := by
  intro he; subst he; rw [h] at hx; cases hx

theorem isJsWs_eq_false_of_plain {c : Char} (h : plainChar c = true) :
    isJsWs c = false := by
  by_contra hw
  rw [Bool.not_eq_false] at hw
  simp only [isJsWs, Bool.or_eq_true, decide_eq_true_eq] at hw
  rcases hw with ((((h1 | h1) | h1) | h1) | h1) | h1 <;> subst h1 <;>
    revert h <;> decide

theorem trimL_eq_self_of_plain {l : List Char}
    (h : ∀ c ∈ l, plainChar c = true) : trimL l = l :=
  trimL_eq_self fun c hc => isJsWs_eq_false_of_plain (h c hc)

theorem jsTrim_eq_self_of_plain {s : String}
    (h : ∀ c ∈ s.data, plainChar c = true) : jsTrim s = s := by
  unfold jsTrim
  rw [trimL_eq_self_of_plain h]

/-- A name of letters and hyphens only passes through `parseFont`
untouched. -/
theorem parseFont_plain (f : String)
    (h : ∀ c ∈ (jsTrim f).data, plainChar c = true) :
    parseFont f = jsTrim f := by
  unfold parseFont
  have hna : testNonAlpha (jsTrim f) = false := by
    simp only [testNonAlpha, List.any_eq_false]
    intro c hc
    have := h c hc
    simp only [plainChar] at this
    simp [this]
  rw [hna]
  simp

theorem jsJoin_comma_cons (sep : String) (a b : String) (rest : List String) :
    jsJoin sep (a :: b :: rest) = a ++ sep ++ jsJoin sep (b :: rest) := rfl

/-- `split(",")` undoes `join(",")` when no name contains a comma. -/
theorem jsSplit_jsJoin_comma (names : List String) (hne : names ≠ [])
    (h : ∀ nm ∈ names, ∀ c ∈ nm.data, c ≠ ',') :
    jsSplit ',' (jsJoin "," names) = names := by
  induction names with
  | nil => exact absurd rfl hne
  | cons a rest ih =>
    cases rest with
    | nil =>
      show (splitCharAux ',' a.data []).map (fun l => (⟨l⟩ : String)) = [a]
      rw [splitCharAux_no_sep ',' a.data (h a (by simp)) []]
      simp
    | cons b rest' =>
      unfold jsSplit
      have hdata : (jsJoin "," (a :: b :: rest')).data =
          a.data ++ ',' :: (jsJoin "," (b :: rest')).data := by
        rw [jsJoin_comma_cons]
        show (a.data ++ [','] ++ (jsJoin "," (b :: rest')).data : List Char) = _
        simp
      rw [hdata, splitCharAux_sep_chunk ',' a.data (h a (by simp)) _ []]
      simp only [List.reverse_nil, List.nil_append, List.map_cons]
      have htail := ih (by simp) fun nm hnm c hc => h nm (by simp [hnm]) c hc
      unfold jsSplit at htail
      rw [htail]

theorem mvRun_nil (st : MVState) : mvRun st [] = [] := rfl

theorem mvRun_cons (st : MVState) (c : Char) (cs : List Char) :
    mvRun st (c :: cs) = (mvStep st c).2 ++ mvRun (mvStep st c).1 cs := rfl

theorem mvStep_top_other (c : Char) (hc : c ≠ ',') (hq : c ≠ '"') :
    mvStep .top c = (.top, [c]) := by
  simp [mvStep, hc, hq]

theorem mvStep_top_comma : mvStep .top ',' = (.afterComma, [',']) := rfl

theorem mvStep_afterComma_ws (c : Char) (h : isJsWs c = true) :
    mvStep .afterComma c = (.afterComma, []) := by
  simp [mvStep, h]

theorem mvStep_afterComma_other (c : Char) (hws : isJsWs c = false)
    (hc : c ≠ ',') (hq : c ≠ '"') :
    mvStep .afterComma c = (.top, [c]) := by
  simp [mvStep, hws, hc, hq]

theorem mvRun_top_chunk (l : List Char)
    (h : ∀ c ∈ l, c ≠ ',' ∧ c ≠ '"') (rest : List Char) :
    mvRun .top (l ++ rest) = l ++ mvRun .top rest := by
  induction l with
  | nil => simp
  | cons c cs ih =>
    have hc := h c (by simp)
    rw [List.cons_append, mvRun_cons, mvStep_top_other c hc.1 hc.2]
    rw [ih fun x hx => h x (by simp [hx])]
    rfl

/-- Minification is the identity on comma-free, quote-free values. -/
theorem minVal_eq_self (v : String) (h : ∀ c ∈ v.data, c ≠ ',' ∧ c ≠ '"') :
    minVal v = v := by
  unfold minVal
  have := mvRun_top_chunk v.data h []
  rw [List.append_nil] at this
  rw [this, mvRun_nil, List.append_nil]

theorem mvRun_afterComma_chunk (l : List Char) (hl : l ≠ [])
    (h : ∀ c ∈ l, plainChar c = true) (rest : List Char) :
    mvRun .afterComma (l ++ rest) = l ++ mvRun .top rest := by
  cases l with
  | nil => exact absurd rfl hl
  | cons x xs =>
    have hx := h x (by simp)
    rw [List.cons_append, mvRun_cons,
      mvStep_afterComma_other x (isJsWs_eq_false_of_plain hx)
        (plainChar_ne hx (by decide)) (plainChar_ne hx (by decide))]
    have hxs : ∀ c ∈ xs, c ≠ ',' ∧ c ≠ '"' := fun c hc =>
      ⟨plainChar_ne (h c (by simp [hc])) (by decide),
       plainChar_ne (h c (by simp [hc])) (by decide)⟩
    rw [show ((MVState.top, [x]).2 : List Char) = [x] from rfl]
    rw [show ((MVState.top, [x]) : MVState × List Char).1 = MVState.top
      from rfl]
    rw [mvRun_top_chunk xs hxs rest]
    rfl

/-- Minifying a `", "`-joined list of plain names drops the spaces after
the commas, from either minifier state. -/
theorem mvRun_jsJoin_plain (names : List String) (hne : names ≠ [])
    (h : ∀ nm ∈ names, nm.data ≠ [] ∧ ∀ c ∈ nm.data, plainChar c = true) :
    mvRun .top (jsJoin ", " names).data = (jsJoin "," names).data ∧
    mvRun .afterComma (jsJoin ", " names).data = (jsJoin "," names).data := by
  induction names with
  | nil => exact absurd rfl hne
  | cons a rest ih =>
    have ha := h a (by simp)
    have haplain : ∀ c ∈ a.data, c ≠ ',' ∧ c ≠ '"' := fun c hc =>
      ⟨plainChar_ne (ha.2 c hc) (by decide),
       plainChar_ne (ha.2 c hc) (by decide)⟩
    cases rest with
    | nil =>
      constructor
      · have := mvRun_top_chunk a.data haplain []
        rw [List.append_nil] at this
        rw [show (jsJoin ", " [a]).data = a.data from rfl,
          show (jsJoin "," [a]).data = a.data from rfl, this, mvRun_nil,
          List.append_nil]
      · have := mvRun_afterComma_chunk a.data ha.1 ha.2 []
        rw [List.append_nil] at this
        rw [show (jsJoin ", " [a]).data = a.data from rfl,
          show (jsJoin "," [a]).data = a.data from rfl, this, mvRun_nil,
          List.append_nil]
    | cons b rest' =>
      have htail := ih (by simp) fun nm hnm => h nm (by simp [hnm])
      have hdata : (jsJoin ", " (a :: b :: rest')).data =
          a.data ++ ',' :: ' ' :: (jsJoin ", " (b :: rest')).data := by
        rw [jsJoin_comma_cons]
        show (a.data ++ [',', ' '] ++ (jsJoin ", " (b :: rest')).data :
          List Char) = _
        simp
      have hout : (jsJoin "," (a :: b :: rest')).data =
          a.data ++ ',' :: (jsJoin "," (b :: rest')).data := by
        rw [jsJoin_comma_cons]
        show (a.data ++ [','] ++ (jsJoin "," (b :: rest')).data :
          List Char) = _
        simp
      have hmid : mvRun .top (',' :: ' ' :: (jsJoin ", " (b :: rest')).data)
          = ',' :: (jsJoin "," (b :: rest')).data := by
        rw [mvRun_cons, mvStep_top_comma]
        rw [show ((MVState.afterComma, [',']).2 : List Char) = [','] from rfl]
        rw [show ((MVState.afterComma, [',']) : MVState × List Char).1 =
          MVState.afterComma from rfl]
        rw [mvRun_cons, mvStep_afterComma_ws ' ' (by decide)]
        rw [show ((MVState.afterComma, ([] : List Char)).2 : List Char) = []
          from rfl]
        rw [show ((MVState.afterComma, ([] : List Char)) :
          MVState × List Char).1 = MVState.afterComma from rfl]
        rw [List.nil_append, htail.2]
        rfl
      constructor
      · rw [hdata, hout, mvRun_top_chunk a.data haplain, hmid]
      · rw [hdata, hout, mvRun_afterComma_chunk a.data ha.1 ha.2, hmid]

/-- Minifying a `", "`-joined list of plain names drops the spaces after
the commas. -/
theorem minVal_jsJoin_plain (names : List String) (hne : names ≠ [])
    (h : ∀ nm ∈ names, nm.data ≠ [] ∧ ∀ c ∈ nm.data, plainChar c = true) :
    minVal (jsJoin ", " names) = jsJoin "," names := by
  unfold minVal
  rw [(mvRun_jsJoin_plain names hne h).1]

theorem getProp_nil (nm : String) : getProp [] nm = "" := rfl

theorem getProp_cons (d : String × String) (ds : List (String × String))
    (nm : String) :
    getProp (d :: ds) nm = if d.1 = nm then d.2 else getProp ds nm := by
  by_cases h : d.1 = nm <;> simp [getProp, List.find?_cons, h]

theorem getProp_map_update_self (ds : List (String × String)) (nm v : String)
    (h : ds.any (fun d => d.1 == nm) = true) :
    getProp (ds.map fun d => if d.1 == nm then (nm, v) else d) nm = v := by
  induction ds with
  | nil => simp at h
  | cons d rest ih =>
    simp only [List.map_cons]
    by_cases hd : d.1 = nm
    · simp [hd, getProp_cons]
    · have hd' : (d.1 == nm) = false := by simp [hd]
      simp only [List.any_cons, hd', Bool.false_or] at h
      simp only [hd', Bool.false_eq_true, if_false]
      rw [getProp_cons, if_neg hd]
      exact ih h

theorem getProp_append_single_self (ds : List (String × String))
    (nm v : String) :
    getProp (ds ++ [(nm, v)]) nm = v ∨
      getProp (ds ++ [(nm, v)]) nm = getProp ds nm := by
  induction ds with
  | nil => left; rw [List.nil_append, getProp_cons]; simp
  | cons d rest ih =>
    rw [List.cons_append, getProp_cons, getProp_cons]
    by_cases hd : d.1 = nm
    · right; rw [if_pos hd, if_pos hd]
    · rw [if_neg hd, if_neg hd]; exact ih

theorem getProp_append_single_self_fresh (ds : List (String × String))
    (nm v : String) (h : ∀ x ∈ ds, (x.1 == nm) = false) :
    getProp (ds ++ [(nm, v)]) nm = v := by
  induction ds with
  | nil => rw [List.nil_append, getProp_cons]; simp
  | cons d rest ih =>
    have hd : ¬ d.1 = nm := by simpa using h d (by simp)
    rw [List.cons_append, getProp_cons, if_neg hd]
    exact ih fun x hx => h x (by simp [hx])

theorem getProp_setProperty_self (ds : List (String × String)) (nm v : String) :
    getProp (setProperty ds nm v) nm = v := by
  unfold setProperty
  by_cases h : ds.any (fun d => d.1 == nm) = true
  · simp only [h, if_true]
    exact getProp_map_update_self ds nm v h
  · simp only [h, if_false]
    rw [Bool.not_eq_true, List.any_eq_false] at h
    exact getProp_append_single_self_fresh ds nm v fun x hx => by
      simpa using h x hx

theorem getProp_map_update_ne (ds : List (String × String)) (nm v nm' : String)
    (hne : nm' ≠ nm) :
    getProp (ds.map fun d => if d.1 == nm then (nm, v) else d) nm' =
      getProp ds nm' := by
  induction ds with
  | nil => rfl
  | cons d rest ih =>
    simp only [List.map_cons]
    by_cases hd : d.1 = nm
    · simp only [hd, beq_self_eq_true, if_true]
      rw [getProp_cons, getProp_cons, if_neg (fun hh => hne hh.symm),
        if_neg (by rw [hd]; exact fun hh => hne hh.symm)]
      exact ih
    · have hd' : (d.1 == nm) = false := by simp [hd]
      simp only [hd', Bool.false_eq_true, if_false]
      rw [getProp_cons, getProp_cons]
      by_cases hd2 : d.1 = nm'
      · simp [hd2]
      · rw [if_neg hd2, if_neg hd2]; exact ih

theorem getProp_append_single_ne (ds : List (String × String))
    (nm v nm' : String) (hne : nm' ≠ nm) :
    getProp (ds ++ [(nm, v)]) nm' = getProp ds nm' := by
  induction ds with
  | nil =>
    rw [List.nil_append, getProp_cons, getProp_nil,
      if_neg (fun hh => hne hh.symm)]
  | cons d rest ih =>
    rw [List.cons_append, getProp_cons, getProp_cons]
    by_cases hd2 : d.1 = nm'
    · simp [hd2]
    · rw [if_neg hd2, if_neg hd2]; exact ih

theorem getProp_setProperty_ne (ds : List (String × String)) (nm v nm' : String)
    (hne : nm' ≠ nm) :
    getProp (setProperty ds nm v) nm' = getProp ds nm' := by
  unfold setProperty
  by_cases h : ds.any (fun d => d.1 == nm) = true
  · simp only [h, if_true]
    exact getProp_map_update_ne ds nm v nm' hne
  · simp only [h, if_false]
    exact getProp_append_single_ne ds nm v nm' hne

theorem setProperty_fresh (ds : List (String × String)) (nm v : String)
    (h : ∀ d ∈ ds, (d.1 == nm) = false) :
    setProperty ds nm v = ds ++ [(nm, v)] := by
  unfold setProperty
  rw [if_neg]
  rw [List.any_eq_true]
  push_neg
  intro d hd
  simp [h d hd]

theorem setProperty_update_eq (ds : List (String × String)) (nm v : String)
    (hmem : ds.any (fun d => d.1 == nm) = true)
    (hval : ∀ d ∈ ds, d.1 = nm → d.2 = v) :
    setProperty ds nm v = ds := by
  unfold setProperty
  rw [if_pos hmem]
  have hid : ∀ d ∈ ds, (if d.1 == nm then (nm, v) else d) = d := by
    intro d hd
    by_cases hk : d.1 = nm
    · have h2 : d.2 = v := hval d hd hk
      rw [if_pos (by simp [hk])]
      obtain ⟨d1, d2⟩ := d
      simp only at hk h2
      rw [hk, h2]
    · simp [hk]
  rw [List.map_congr_left hid]
  simp

theorem mem_setProperty (ds : List (String × String)) (nm v : String)
    (d' : String × String) (h : d' ∈ setProperty ds nm v) :
    (d' ∈ ds ∧ d'.1 ≠ nm) ∨ d' = (nm, v) := by
  unfold setProperty at h
  by_cases hmem : ds.any (fun d => d.1 == nm) = true
  · rw [if_pos hmem] at h
    rw [List.mem_map] at h
    obtain ⟨d, hd, he⟩ := h
    by_cases hk : d.1 = nm
    · right; rw [← he]; simp [hk]
    · left
      have he' : d' = d := by
        rw [← he]
        simp [hk]
      rw [he']
      exact ⟨hd, hk⟩
  · rw [if_neg hmem] at h
    rw [Bool.not_eq_true, List.any_eq_false] at hmem
    rcases List.mem_append.mp h with h1 | h1
    · left
      refine ⟨h1, ?_⟩
      have := hmem d' h1
      simpa using this
    · right; simpa using h1

theorem keys_setProperty_mem (ds : List (String × String)) (nm v : String)
    (hmem : ds.any (fun d => d.1 == nm) = true) :
    (setProperty ds nm v).map Prod.fst = ds.map Prod.fst := by
  unfold setProperty
  rw [if_pos hmem, List.map_map]
  apply List.map_congr_left
  intro d _
  by_cases hk : d.1 = nm
  · simp [hk]
  · simp [hk]

theorem keys_setProperty_fresh (ds : List (String × String)) (nm v : String)
    (hmem : ds.any (fun d => d.1 == nm) = false) :
    (setProperty ds nm v).map Prod.fst = ds.map Prod.fst ++ [nm] := by
  unfold setProperty
  rw [hmem]
  simp

theorem getProp_eq_of_mem_nodup (ds : List (String × String))
    (d : String × String) (hd : d ∈ ds) (hnd : (ds.map Prod.fst).Nodup) :
    getProp ds d.1 = d.2 := by
  induction ds with
  | nil => cases hd
  | cons e rest ih =>
    rcases List.mem_cons.mp hd with he | he
    · rw [← he, getProp_cons, if_pos rfl]
    · rw [getProp_cons]
      rw [List.map_cons, List.nodup_cons] at hnd
      have hkey : d.1 ∈ rest.map Prod.fst := List.mem_map.mpr ⟨d, he, rfl⟩
      have hne : ¬ e.1 = d.1 := fun hq => hnd.1 (hq ▸ hkey)
      rw [if_neg hne]
      exact ih he hnd.2

theorem minVal_empty : minVal "" = "" := rfl

theorem getProp_map_minVal (ds : List (String × String)) (nm : String) :
    getProp (ds.map fun d => (d.1, minVal d.2)) nm = minVal (getProp ds nm) := by
  induction ds with
  | nil => rfl
  | cons d rest ih =>
    rw [List.map_cons, getProp_cons, getProp_cons]
    by_cases hk : d.1 = nm
    · rw [if_pos hk, if_pos (show (d.1, minVal d.2).1 = nm from hk)]
    · rw [if_neg hk, if_neg (show ¬ (d.1, minVal d.2).1 = nm from hk), ih]

theorem keys_map_minVal (ds : List (String × String)) :
    (ds.map fun d => (d.1, minVal d.2)).map Prod.fst = ds.map Prod.fst := by
  rw [List.map_map]
  rfl

theorem isJsWs_eq_false_of_digit {c : Char} (h : c.isDigit = true) :
    isJsWs c = false := by
  by_contra hw
  rw [Bool.not_eq_false] at hw
  simp only [isJsWs, Bool.or_eq_true, decide_eq_true_eq] at hw
  rcases hw with ((((h1 | h1) | h1) | h1) | h1) | h1 <;> subst h1 <;>
    revert h <;> decide

theorem isJsWs_eq_false_of_selChar {c : Char} (h : selChar c = true) :
    isJsWs c = false := by
  simp only [selChar, Bool.or_eq_true] at h
  rcases h with ((((h1 | h1) | h1) | h1) | h1) | h1
  · exact isJsWs_eq_false_of_plain (by simp [plainChar, h1])
  · exact isJsWs_eq_false_of_digit h1
  all_goals (simp only [decide_eq_true_eq] at h1; subst h1; decide)

theorem trimLeftL_length_le (l : List Char) :
    (trimLeftL l).length ≤ l.length := by
  induction l with
  | nil => simp [trimLeftL]
  | cons c cs ih =>
    by_cases h : isJsWs c = true
    · simp only [trimLeftL, h, if_true]
      exact le_trans ih (by simp)
    · rw [Bool.not_eq_true] at h
      simp [trimLeftL, h]

theorem trimL_length_le (l : List Char) : (trimL l).length ≤ l.length := by
  unfold trimL trimRightL
  calc (trimLeftL (trimLeftL l).reverse).reverse.length
      = (trimLeftL (trimLeftL l).reverse).length := by simp
    _ ≤ (trimLeftL l).reverse.length := trimLeftL_length_le _
    _ = (trimLeftL l).length := by simp
    _ ≤ l.length := trimLeftL_length_le l

theorem head_not_ws_of_trimL_id {x : Char} {xs : List Char}
    (h : trimL (x :: xs) = x :: xs) : isJsWs x = false := by
  by_contra hw
  rw [Bool.not_eq_false] at hw
  have h1 : trimL (x :: xs) = trimRightL (trimLeftL xs) := by
    unfold trimL
    rw [show trimLeftL (x :: xs) = trimLeftL xs by simp [trimLeftL, hw]]
  have h2 : (trimRightL (trimLeftL xs)).length ≤ xs.length := by
    unfold trimRightL
    calc (trimLeftL (trimLeftL xs).reverse).reverse.length
        = (trimLeftL (trimLeftL xs).reverse).length := by simp
      _ ≤ (trimLeftL xs).reverse.length := trimLeftL_length_le _
      _ = (trimLeftL xs).length := by simp
      _ ≤ xs.length := trimLeftL_length_le xs
  rw [h1] at h
  have := congrArg List.length h
  simp only [List.length_cons] at this
  omega

/-! ### cssStep transition equations, on explicit accumulator states -/

theorem cssStep_beforeSel_other (rules : List CSSRule) (sel : List Char)
    (ds : List (String × String)) (nm buf : List Char) (c : Char)
    (hws : isJsWs c = false) :
    cssStep .beforeSel ⟨rules, sel, ds, nm, buf⟩ c =
      (.inSel, ⟨rules, sel, ds, nm, [c]⟩) := by
  simp [cssStep, hws]

theorem cssStep_inSel_brace (rules : List CSSRule) (sel : List Char)
    (ds : List (String × String)) (nm buf : List Char) :
    cssStep .inSel ⟨rules, sel, ds, nm, buf⟩ '{' =
      (.beforeName, ⟨rules, trimL buf, ds, nm, []⟩) := by
  simp [cssStep]

theorem cssStep_inSel_other (rules : List CSSRule) (sel : List Char)
    (ds : List (String × String)) (nm buf : List Char) (c : Char)
    (h : c ≠ '{') :
    cssStep .inSel ⟨rules, sel, ds, nm, buf⟩ c =
      (.inSel, ⟨rules, sel, ds, nm, buf ++ [c]⟩) := by
  simp [cssStep, h]

theorem cssStep_beforeName_close (rules : List CSSRule) (sel : List Char)
    (ds : List (String × String)) (nm buf : List Char) :
    cssStep .beforeName ⟨rules, sel, ds, nm, buf⟩ '}' =
      (.beforeSel, ⟨rules ++ [⟨⟨sel⟩, ds⟩], [], [], [], []⟩) := by
  simp only [cssStep]
  rw [if_neg (by decide), if_pos trivial]
  rfl

theorem cssStep_beforeName_other (rules : List CSSRule) (sel : List Char)
    (ds : List (String × String)) (nm buf : List Char) (c : Char)
    (hws : isJsWs c = false) (hsemi : c ≠ ';') (hclose : c ≠ '}') :
    cssStep .beforeName ⟨rules, sel, ds, nm, buf⟩ c =
      (.inName, ⟨rules, sel, ds, nm, [c]⟩) := by
  simp only [cssStep]
  rw [if_neg (by simp [hws, hsemi]), if_neg hclose]

theorem cssStep_inName_colon (rules : List CSSRule) (sel : List Char)
    (ds : List (String × String)) (nm buf : List Char) :
    cssStep .inName ⟨rules, sel, ds, nm, buf⟩ ':' =
      (.beforeValue, ⟨rules, sel, ds, trimL buf, []⟩) := by
  simp [cssStep]

theorem cssStep_inName_other (rules : List CSSRule) (sel : List Char)
    (ds : List (String × String)) (nm buf : List Char) (c : Char)
    (hcolon : c ≠ ':') (hclose : c ≠ '}') :
    cssStep .inName ⟨rules, sel, ds, nm, buf⟩ c =
      (.inName, ⟨rules, sel, ds, nm, buf ++ [c]⟩) := by
  simp only [cssStep]
  rw [if_neg hcolon, if_neg hclose]

theorem cssStep_beforeValue_other (rules : List CSSRule) (sel : List Char)
    (ds : List (String × String)) (nm buf : List Char) (c : Char)
    (hws : isJsWs c = false) (hq1 : c ≠ '"') (hq2 : c ≠ '\'')
    (hsemi : c ≠ ';') (hclose : c ≠ '}') :
    cssStep .beforeValue ⟨rules, sel, ds, nm, buf⟩ c =
      (.inValue, ⟨rules, sel, ds, nm, [c]⟩) := by
  simp only [cssStep]
  rw [if_neg (by simp [hws]), if_neg (by simp [hq1, hq2]), if_neg hsemi,
    if_neg hclose]

theorem cssStep_inValue_semi (rules : List CSSRule) (sel : List Char)
    (ds : List (String × String)) (nm buf : List Char) :
    cssStep .inValue ⟨rules, sel, ds, nm, buf⟩ ';' =
      (.beforeName, ⟨rules, sel, setProperty ds ⟨nm⟩ ⟨trimL buf⟩, [], []⟩) := by
  simp [cssStep, endDecl]

theorem cssStep_inValue_close (rules : List CSSRule) (sel : List Char)
    (ds : List (String × String)) (nm buf : List Char) :
    cssStep .inValue ⟨rules, sel, ds, nm, buf⟩ '}' =
      (.beforeSel,
        ⟨rules ++ [⟨⟨sel⟩, setProperty ds ⟨nm⟩ ⟨trimL buf⟩⟩],
          [], [], [], []⟩) := by
  simp only [cssStep]
  rw [if_neg (by decide), if_pos trivial]
  rfl

theorem cssStep_inValue_other (rules : List CSSRule) (sel : List Char)
    (ds : List (String × String)) (nm buf : List Char) (c : Char)
    (hsemi : c ≠ ';') (hclose : c ≠ '}') (hq1 : c ≠ '"') (hq2 : c ≠ '\'') :
    cssStep .inValue ⟨rules, sel, ds, nm, buf⟩ c =
      (.inValue, ⟨rules, sel, ds, nm, buf ++ [c]⟩) := by
  simp only [cssStep]
  rw [if_neg hsemi, if_neg hclose, if_neg (by simp [hq1, hq2])]

theorem cssParseLoop_cons (st : PState) (a : PAcc) (c : Char)
    (cs : List Char) :
    cssParseLoop st a (c :: cs) =
      cssParseLoop (cssStep st a c).1 (cssStep st a c).2 cs := rfl

/-! ### Parsing back a minified chunk -/

theorem parse_inSel_chunk (s' : List Char) (h : ∀ c ∈ s', c ≠ '{') :
    ∀ (rules : List CSSRule) (sel : List Char) (ds : List (String × String))
      (nm buf rest : List Char),
      cssParseLoop .inSel ⟨rules, sel, ds, nm, buf⟩ (s' ++ '{' :: rest) =
        cssParseLoop .beforeName ⟨rules, trimL (buf ++ s'), ds, nm, []⟩
          rest := by
  induction s' with
  | nil =>
    intro rules sel ds nm buf rest
    rw [List.nil_append, cssParseLoop_cons, cssStep_inSel_brace,
      List.append_nil]
  | cons c s'' ih =>
    intro rules sel ds nm buf rest
    rw [List.cons_append, cssParseLoop_cons,
      cssStep_inSel_other rules sel ds nm buf c (h c (by simp))]
    rw [show ((PState.inSel, (⟨rules, sel, ds, nm, buf ++ [c]⟩ : PAcc)) :
      PState × PAcc).1 = PState.inSel from rfl]
    rw [show ((PState.inSel, (⟨rules, sel, ds, nm, buf ++ [c]⟩ : PAcc)) :
      PState × PAcc).2 = (⟨rules, sel, ds, nm, buf ++ [c]⟩ : PAcc) from rfl]
    rw [ih (fun x hx => h x (by simp [hx])) rules sel ds nm (buf ++ [c]) rest]
    rw [List.append_assoc]
    rfl

theorem parse_sel_chunk (s : List Char) (hne : s ≠ [])
    (h : ∀ c ∈ s, selChar c = true) :
    ∀ (rules : List CSSRule) (sel : List Char) (ds : List (String × String))
      (nm buf rest : List Char),
      cssParseLoop .beforeSel ⟨rules, sel, ds, nm, buf⟩ (s ++ '{' :: rest) =
        cssParseLoop .beforeName ⟨rules, s, ds, nm, []⟩ rest := by
  cases s with
  | nil => exact absurd rfl hne
  | cons c s'' =>
    intro rules sel ds nm buf rest
    have hc := h c (by simp)
    rw [List.cons_append, cssParseLoop_cons,
      cssStep_beforeSel_other rules sel ds nm buf c
        (isJsWs_eq_false_of_selChar hc)]
    rw [show ((PState.inSel, (⟨rules, sel, ds, nm, [c]⟩ : PAcc)) :
      PState × PAcc).1 = PState.inSel from rfl]
    rw [show ((PState.inSel, (⟨rules, sel, ds, nm, [c]⟩ : PAcc)) :
      PState × PAcc).2 = (⟨rules, sel, ds, nm, [c]⟩ : PAcc) from rfl]
    rw [parse_inSel_chunk s''
      (fun x hx => fun he => absurd (h x (by simp [hx]))
        (by subst he; decide)) rules sel ds nm [c] rest]
    rw [show ([c] ++ s'' : List Char) = c :: s'' from rfl]
    rw [trimL_eq_self fun x hx => isJsWs_eq_false_of_selChar (h x hx)]

theorem parse_inName_chunk (p' : List Char)
    (h : ∀ c ∈ p', c ≠ ':' ∧ c ≠ '}') :
    ∀ (rules : List CSSRule) (sel : List Char) (ds : List (String × String))
      (nm buf rest : List Char),
      cssParseLoop .inName ⟨rules, sel, ds, nm, buf⟩ (p' ++ ':' :: rest) =
        cssParseLoop .beforeValue ⟨rules, sel, ds, trimL (buf ++ p'), []⟩
          rest := by
  induction p' with
  | nil =>
    intro rules sel ds nm buf rest
    rw [List.nil_append, cssParseLoop_cons, cssStep_inName_colon,
      List.append_nil]
  | cons c p'' ih =>
    intro rules sel ds nm buf rest
    have hc := h c (by simp)
    rw [List.cons_append, cssParseLoop_cons,
      cssStep_inName_other rules sel ds nm buf c hc.1 hc.2]
    rw [show ((PState.inName, (⟨rules, sel, ds, nm, buf ++ [c]⟩ : PAcc)) :
      PState × PAcc).1 = PState.inName from rfl]
    rw [show ((PState.inName, (⟨rules, sel, ds, nm, buf ++ [c]⟩ : PAcc)) :
      PState × PAcc).2 = (⟨rules, sel, ds, nm, buf ++ [c]⟩ : PAcc) from rfl]
    rw [ih (fun x hx => h x (by simp [hx])) rules sel ds nm (buf ++ [c]) rest]
    rw [List.append_assoc]
    rfl

theorem parse_name_chunk (p : List Char) (hne : p ≠ [])
    (h : ∀ c ∈ p, plainChar c = true) :
    ∀ (rules : List CSSRule) (sel : List Char) (ds : List (String × String))
      (nm buf rest : List Char),
      cssParseLoop .beforeName ⟨rules, sel, ds, nm, buf⟩ (p ++ ':' :: rest) =
        cssParseLoop .beforeValue ⟨rules, sel, ds, p, []⟩ rest := by
  cases p with
  | nil => exact absurd rfl hne
  | cons c p'' =>
    intro rules sel ds nm buf rest
    have hc := h c (by simp)
    rw [List.cons_append, cssParseLoop_cons,
      cssStep_beforeName_other rules sel ds nm buf c
        (isJsWs_eq_false_of_plain hc) (plainChar_ne hc (by decide))
        (plainChar_ne hc (by decide))]
    rw [show ((PState.inName, (⟨rules, sel, ds, nm, [c]⟩ : PAcc)) :
      PState × PAcc).1 = PState.inName from rfl]
    rw [show ((PState.inName, (⟨rules, sel, ds, nm, [c]⟩ : PAcc)) :
      PState × PAcc).2 = (⟨rules, sel, ds, nm, [c]⟩ : PAcc) from rfl]
    rw [parse_inName_chunk p''
      (fun x hx => ⟨plainChar_ne (h x (by simp [hx])) (by decide),
                    plainChar_ne (h x (by simp [hx])) (by decide)⟩)
      rules sel ds nm [c] rest]
    rw [show ([c] ++ p'' : List Char) = c :: p'' from rfl]
    rw [trimL_eq_self_of_plain h]

theorem parse_inValue_semi (v' : List Char)
    (h : ∀ c ∈ v', c ≠ ';' ∧ c ≠ '}' ∧ c ≠ '"' ∧ c ≠ '\'') :
    ∀ (rules : List CSSRule) (sel : List Char) (ds : List (String × String))
      (nm buf rest : List Char),
      cssParseLoop .inValue ⟨rules, sel, ds, nm, buf⟩ (v' ++ ';' :: rest) =
        cssParseLoop .beforeName
          ⟨rules, sel, setProperty ds ⟨nm⟩ ⟨trimL (buf ++ v')⟩, [], []⟩
          rest := by
  induction v' with
  | nil =>
    intro rules sel ds nm buf rest
    rw [List.nil_append, cssParseLoop_cons, cssStep_inValue_semi,
      List.append_nil]
  | cons c v'' ih =>
    intro rules sel ds nm buf rest
    have hc := h c (by simp)
    rw [List.cons_append, cssParseLoop_cons,
      cssStep_inValue_other rules sel ds nm buf c hc.1 hc.2.1 hc.2.2.1
        hc.2.2.2]
    rw [show ((PState.inValue, (⟨rules, sel, ds, nm, buf ++ [c]⟩ : PAcc)) :
      PState × PAcc).1 = PState.inValue from rfl]
    rw [show ((PState.inValue, (⟨rules, sel, ds, nm, buf ++ [c]⟩ : PAcc)) :
      PState × PAcc).2 = (⟨rules, sel, ds, nm, buf ++ [c]⟩ : PAcc) from rfl]
    rw [ih (fun x hx => h x (by simp [hx])) rules sel ds nm (buf ++ [c]) rest]
    rw [List.append_assoc]
    rfl

theorem parse_inValue_close (v' : List Char)
    (h : ∀ c ∈ v', c ≠ ';' ∧ c ≠ '}' ∧ c ≠ '"' ∧ c ≠ '\'') :
    ∀ (rules : List CSSRule) (sel : List Char) (ds : List (String × String))
      (nm buf rest : List Char),
      cssParseLoop .inValue ⟨rules, sel, ds, nm, buf⟩ (v' ++ '}' :: rest) =
        cssParseLoop .beforeSel
          ⟨rules ++ [⟨⟨sel⟩, setProperty ds ⟨nm⟩ ⟨trimL (buf ++ v')⟩⟩],
            [], [], [], []⟩ rest := by
  induction v' with
  | nil =>
    intro rules sel ds nm buf rest
    rw [List.nil_append, cssParseLoop_cons, cssStep_inValue_close,
      List.append_nil]
  | cons c v'' ih =>
    intro rules sel ds nm buf rest
    have hc := h c (by simp)
    rw [List.cons_append, cssParseLoop_cons,
      cssStep_inValue_other rules sel ds nm buf c hc.1 hc.2.1 hc.2.2.1
        hc.2.2.2]
    rw [show ((PState.inValue, (⟨rules, sel, ds, nm, buf ++ [c]⟩ : PAcc)) :
      PState × PAcc).1 = PState.inValue from rfl]
    rw [show ((PState.inValue, (⟨rules, sel, ds, nm, buf ++ [c]⟩ : PAcc)) :
      PState × PAcc).2 = (⟨rules, sel, ds, nm, buf ++ [c]⟩ : PAcc) from rfl]
    rw [ih (fun x hx => h x (by simp [hx])) rules sel ds nm (buf ++ [c]) rest]
    rw [List.append_assoc]
    rfl

theorem parse_value_semi (v : String) (hsafe : minValSafe v) :
    ∀ (rules : List CSSRule) (sel : List Char) (ds : List (String × String))
      (nm rest : List Char),
      cssParseLoop .beforeValue ⟨rules, sel, ds, nm, []⟩
          (v.data ++ ';' :: rest) =
        cssParseLoop .beforeName
          ⟨rules, sel, setProperty ds ⟨nm⟩ v, [], []⟩ rest := by
  obtain ⟨hne, htr, h⟩ := hsafe
  intro rules sel ds nm rest
  cases hv : v.data with
  | nil => exact absurd hv hne
  | cons x xs =>
    have hx : x ∈ v.data := by rw [hv]; simp
    have hxc := h x hx
    have hws : isJsWs x = false := head_not_ws_of_trimL_id (hv ▸ htr)
    rw [List.cons_append, cssParseLoop_cons,
      cssStep_beforeValue_other rules sel ds nm [] x hws hxc.2.2.1
        hxc.2.2.2 hxc.1 hxc.2.1]
    rw [show ((PState.inValue, (⟨rules, sel, ds, nm, [x]⟩ : PAcc)) :
      PState × PAcc).1 = PState.inValue from rfl]
    rw [show ((PState.inValue, (⟨rules, sel, ds, nm, [x]⟩ : PAcc)) :
      PState × PAcc).2 = (⟨rules, sel, ds, nm, [x]⟩ : PAcc) from rfl]
    rw [parse_inValue_semi xs
      (fun c hc => h c (by rw [hv]; simp [hc])) rules sel ds nm [x] rest]
    rw [show ([x] ++ xs : List Char) = x :: xs from rfl, ← hv, htr]

theorem parse_value_close (v : String) (hsafe : minValSafe v) :
    ∀ (rules : List CSSRule) (sel : List Char) (ds : List (String × String))
      (nm rest : List Char),
      cssParseLoop .beforeValue ⟨rules, sel, ds, nm, []⟩
          (v.data ++ '}' :: rest) =
        cssParseLoop .beforeSel
          ⟨rules ++ [⟨⟨sel⟩, setProperty ds ⟨nm⟩ v⟩], [], [], [], []⟩
          rest := by
  obtain ⟨hne, htr, h⟩ := hsafe
  intro rules sel ds nm rest
  cases hv : v.data with
  | nil => exact absurd hv hne
  | cons x xs =>
    have hx : x ∈ v.data := by rw [hv]; simp
    have hxc := h x hx
    have hws : isJsWs x = false := head_not_ws_of_trimL_id (hv ▸ htr)
    rw [List.cons_append, cssParseLoop_cons,
      cssStep_beforeValue_other rules sel ds nm [] x hws hxc.2.2.1
        hxc.2.2.2 hxc.1 hxc.2.1]
    rw [show ((PState.inValue, (⟨rules, sel, ds, nm, [x]⟩ : PAcc)) :
      PState × PAcc).1 = PState.inValue from rfl]
    rw [show ((PState.inValue, (⟨rules, sel, ds, nm, [x]⟩ : PAcc)) :
      PState × PAcc).2 = (⟨rules, sel, ds, nm, [x]⟩ : PAcc) from rfl]
    rw [parse_inValue_close xs
      (fun c hc => h c (by rw [hv]; simp [hc])) rules sel ds nm [x] rest]
    rw [show ([x] ++ xs : List Char) = x :: xs from rfl, ← hv, htr]

theorem parse_decls_chunk (ds' : List (String × String)) :
    ∀ (rules : List CSSRule) (sel : List Char) (ds : List (String × String))
      (rest : List Char),
      (∀ d ∈ ds', minDeclSafe d) →
      (ds'.map Prod.fst).Nodup →
      (∀ d' ∈ ds', ∀ e ∈ ds, (e.1 == d'.1) = false) →
      cssParseLoop .beforeName ⟨rules, sel, ds, [], []⟩
        ((jsJoin ";" (ds'.map minDecl)).data ++ '}' :: rest) =
      cssParseLoop .beforeSel
        ⟨rules ++ [⟨⟨sel⟩, ds ++ ds'.map fun d => (d.1, minVal d.2)⟩],
          [], [], [], []⟩ rest := by
  induction ds' with
  | nil =>
    intro rules sel ds rest hsafe hnd hfresh
    rw [show (jsJoin ";" (List.map minDecl [])).data = ([] : List Char)
      from rfl]
    rw [List.nil_append, cssParseLoop_cons, cssStep_beforeName_close]
    rw [show ((PState.beforeSel,
      (⟨rules ++ [⟨⟨sel⟩, ds⟩], [], [], [], []⟩ : PAcc)) :
      PState × PAcc).1 = PState.beforeSel from rfl]
    rw [show ((PState.beforeSel,
      (⟨rules ++ [⟨⟨sel⟩, ds⟩], [], [], [], []⟩ : PAcc)) :
      PState × PAcc).2 = (⟨rules ++ [⟨⟨sel⟩, ds⟩], [], [], [], []⟩ : PAcc)
      from rfl]
    rw [List.map_nil, List.append_nil]
  | cons d tl ih =>
    intro rules sel ds rest hsafe hnd hfresh
    obtain ⟨hp_ne, hp_plain, hv_safe⟩ := hsafe d (by simp)
    cases tl with
    | nil =>
      have htext : (jsJoin ";" (List.map minDecl [d])).data ++ '}' :: rest
          = d.1.data ++ ':' :: ((minVal d.2).data ++ '}' :: rest) := by
        show ((d.1 ++ ":" ++ minVal d.2).data ++ '}' :: rest : List Char) = _
        show ((d.1.data ++ [':'] ++ (minVal d.2).data) ++ '}' :: rest :
          List Char) = _
        simp
      rw [htext]
      rw [parse_name_chunk d.1.data hp_ne hp_plain rules sel ds [] []]
      rw [parse_value_close (minVal d.2) hv_safe rules sel ds d.1.data rest]
      rw [show (⟨d.1.data⟩ : String) = d.1 from rfl]
      rw [setProperty_fresh ds d.1 (minVal d.2)
        (fun e he => hfresh d (by simp) e he)]
      rw [List.map_cons, List.map_nil]
    | cons e tl' =>
      have htext :
          (jsJoin ";" (List.map minDecl (d :: e :: tl'))).data ++ '}' :: rest
          = d.1.data ++ ':' :: ((minVal d.2).data ++ ';' ::
              ((jsJoin ";" (List.map minDecl (e :: tl'))).data ++
                '}' :: rest)) := by
        rw [List.map_cons, List.map_cons, jsJoin_comma_cons]
        show (((d.1 ++ ":" ++ minVal d.2) ++ ";" ++
          jsJoin ";" (minDecl e :: List.map minDecl tl')).data ++
          '}' :: rest : List Char) = _
        show ((d.1.data ++ [':'] ++ (minVal d.2).data ++ [';'] ++
          (jsJoin ";" (minDecl e :: List.map minDecl tl')).data) ++
          '}' :: rest : List Char) = _
        simp [List.map_cons]
      rw [htext]
      rw [parse_name_chunk d.1.data hp_ne hp_plain rules sel ds [] []]
      rw [parse_value_semi (minVal d.2) hv_safe rules sel ds d.1.data]
      rw [show (⟨d.1.data⟩ : String) = d.1 from rfl]
      rw [setProperty_fresh ds d.1 (minVal d.2)
        (fun x hx => hfresh d (by simp) x hx)]
      have hnd_tail : ((e :: tl').map Prod.fst).Nodup := by
        rw [List.map_cons, List.nodup_cons] at hnd
        exact hnd.2
      have hkey_d : d.1 ∉ (e :: tl').map Prod.fst := by
        rw [List.map_cons, List.nodup_cons] at hnd
        exact hnd.1
      have hfresh' : ∀ d' ∈ e :: tl',
          ∀ x ∈ ds ++ [(d.1, minVal d.2)], (x.1 == d'.1) = false := by
        intro d' hd' x hx
        rcases List.mem_append.mp hx with h1 | h1
        · exact hfresh d' (by simp [hd']) x h1
        · have hx1 : x = (d.1, minVal d.2) := by simpa using h1
          have : d.1 ≠ d'.1 := by
            intro he
            exact hkey_d (he ▸ List.mem_map.mpr ⟨d', hd', rfl⟩)
          rw [hx1]
          simpa using this
      rw [ih rules sel (ds ++ [(d.1, minVal d.2)]) rest
        (fun x hx => hsafe x (by simp [hx])) hnd_tail hfresh']
      rw [List.map_cons, List.append_assoc]
      rfl

theorem parse_rules_chunk (K : List CSSRule) :
    ∀ acc : List CSSRule,
      (∀ r ∈ K, minRuleSafe r) →
      cssParseLoop .beforeSel ⟨acc, [], [], [], []⟩ (minSer K).data =
        acc ++ K.map mvRule := by
  induction K with
  | nil =>
    intro acc hsafe
    rw [show (minSer []).data = ([] : List Char) from rfl]
    rw [show cssParseLoop .beforeSel (⟨acc, [], [], [], []⟩ : PAcc) [] = acc
      from rfl]
    simp
  | cons r K' ih =>
    intro acc hsafe
    obtain ⟨hs_ne, hs_sel, hd_ne, hd_nd, hd_safe⟩ := hsafe r (by simp)
    have hmr : minRule r = some (r.selectorText ++ "\x7b" ++
        jsJoin ";" (r.decls.map minDecl) ++ "\x7d") := by
      unfold minRule
      rw [if_neg (by simpa using hd_ne)]
    have hser : (minSer (r :: K')).data =
        r.selectorText.data ++ '{' ::
          ((jsJoin ";" (r.decls.map minDecl)).data ++ '}' ::
            (minSer K').data) := by
      unfold minSer
      rw [List.filterMap_cons, hmr]
      show ((r.selectorText ++ "\x7b" ++ jsJoin ";" (r.decls.map minDecl) ++
        "\x7d") ++ concatL (K'.filterMap minRule)).data = _
      show ((r.selectorText.data ++ ['{'] ++
        (jsJoin ";" (r.decls.map minDecl)).data ++ ['}']) ++
        (concatL (K'.filterMap minRule)).data : List Char) = _
      simp
    rw [hser]
    rw [parse_sel_chunk r.selectorText.data hs_ne hs_sel acc [] [] [] []]
    rw [parse_decls_chunk r.decls acc r.selectorText.data [] _ hd_safe hd_nd
      (fun d' _ e he => absurd he (List.not_mem_nil e))]
    rw [show (⟨r.selectorText.data⟩ : String) = r.selectorText from rfl]
    rw [List.nil_append]
    refine (ih
      (acc ++ [⟨r.selectorText, r.decls.map fun d => (d.1, minVal d.2)⟩])
      (fun x hx => hsafe x (by simp [hx]))).trans ?_
    rw [List.map_cons, List.append_assoc]
    rfl

/-- Parsing the minified serialization of safe rules returns exactly those
rules with minified values. -/
theorem cssParse_minSer (K : List CSSRule) (h : ∀ r ∈ K, minRuleSafe r) :
    cssParse (minSer K) = K.map mvRule := by
  unfold cssParse
  have := parse_rules_chunk K [] h
  simpa using this

theorem charClass_ne {P : Char → Bool} {c x : Char} (h : P c = true)
    (hx : P x = false) : c ≠ x := by
  intro he; subst he; rw [h] at hx; cases hx

theorem getProp_mem (ds : List (String × String)) (nm : String)
    (h : getProp ds nm ≠ "") : (nm, getProp ds nm) ∈ ds := by
  induction ds with
  | nil => exact absurd rfl h
  | cons d rest ih =>
    rw [getProp_cons] at h ⊢
    by_cases hk : d.1 = nm
    · rw [if_pos hk] at h ⊢
      obtain ⟨d1, d2⟩ := d
      simp only at hk
      subst hk
      exact List.mem_cons_self _ _
    · rw [if_neg hk] at h ⊢
      exact List.mem_cons_of_mem _ (ih h)

theorem setProperty_key_val (ds : List (String × String)) (nm v : String)
    (d' : String × String) (h : d' ∈ setProperty ds nm v)
    (hk : d'.1 = nm) : d' = (nm, v) := by
  unfold setProperty at h
  by_cases hmem : ds.any (fun d => d.1 == nm) = true
  · rw [if_pos hmem] at h
    rw [List.mem_map] at h
    obtain ⟨d, hd, he⟩ := h
    by_cases hdk : d.1 = nm
    · rw [← he]; simp [hdk]
    · rw [← he] at hk
      have hb : (d.1 == nm) = false := by simp [hdk]
      rw [hb] at hk
      simp only [Bool.false_eq_true, if_false] at hk
      exact absurd hk hdk
  · rw [if_neg hmem] at h
    rw [Bool.not_eq_true, List.any_eq_false] at hmem
    rcases List.mem_append.mp h with h1 | h1
    · exact absurd (by simp [hk] : (d'.1 == nm) = true) (hmem d' h1)
    · simpa using h1

theorem splitCharAux_ne_nil (sep : Char) (l acc : List Char) :
    splitCharAux sep l acc ≠ [] := by
  induction l generalizing acc with
  | nil => simp [splitCharAux]
  | cons c cs ih =>
    unfold splitCharAux
    by_cases hc : c = sep
    · simp [hc]
    · rw [if_neg hc]
      exact ih (c :: acc)

theorem jsSplit_ne_nil (sep : Char) (s : String) : jsSplit sep s ≠ [] := by
  unfold jsSplit
  simp [splitCharAux_ne_nil]

theorem jsJoin_data_mem (sep : String) (names : List String) (c : Char)
    (h : c ∈ (jsJoin sep names).data) :
    c ∈ sep.data ∨ ∃ nm ∈ names, c ∈ nm.data := by
  induction names with
  | nil => cases h
  | cons a rest ih =>
    cases rest with
    | nil =>
      right
      exact ⟨a, by simp, h⟩
    | cons b rest' =>
      rw [jsJoin_comma_cons] at h
      rw [show ((a ++ sep ++ jsJoin sep (b :: rest')).data : List Char) =
        a.data ++ sep.data ++ (jsJoin sep (b :: rest')).data from rfl] at h
      rcases List.mem_append.mp h with h1 | h1
      · rcases List.mem_append.mp h1 with h2 | h2
        · right; exact ⟨a, by simp, h2⟩
        · left; exact h2
      · rcases ih h1 with h2 | ⟨nm, hnm, hc⟩
        · left; exact h2
        · right; exact ⟨nm, by simp [hnm], hc⟩

theorem jsJoin_data_ne_nil (sep : String) (a : String) (tl : List String)
    (ha : a.data ≠ []) : (jsJoin sep (a :: tl)).data ≠ [] := by
  cases tl with
  | nil => exact ha
  | cons b rest =>
    rw [jsJoin_comma_cons]
    rw [show ((a ++ sep ++ jsJoin sep (b :: rest)).data : List Char) =
      a.data ++ sep.data ++ (jsJoin sep (b :: rest)).data from rfl]
    simp [ha]

/-- On a value whose names are all plain, the per-name escape is the
identity on the trimmed names. -/
theorem parseFontFamily_plain (w : String)
    (h : ∀ f ∈ jsSplit ',' w, ∀ c ∈ (jsTrim f).data, plainChar c = true) :
    parseFontFamily w = jsJoin ", " ((jsSplit ',' w).map jsTrim) := by
  unfold parseFontFamily
  congr 1
  apply List.map_congr_left
  intro f hf
  exact parseFont_plain f (h f hf)

theorem minSer_filter (T : List CSSRule) :
    minSer T = minSer (T.filter fun r => !r.decls.isEmpty) := by
  unfold minSer
  congr 1
  induction T with
  | nil => rfl
  | cons r T' ih =>
    rw [List.filterMap_cons]
    by_cases he : r.decls.isEmpty = true
    · have hmr : minRule r = none := by unfold minRule; rw [if_pos he]
      rw [hmr, List.filter_cons]
      simp only [he, Bool.not_true, Bool.false_eq_true, if_false]
      exact ih
    · rw [Bool.not_eq_true] at he
      have hmr : minRule r = some (r.selectorText ++ "\x7b" ++
          jsJoin ";" (r.decls.map minDecl) ++ "\x7d") := by
        unfold minRule; rw [if_neg (by simp [he])]
      rw [hmr, List.filter_cons]
      simp only [he, Bool.not_false, if_pos]
      rw [List.filterMap_cons, hmr, ih]

theorem transformRule_none_numStyles (nbg : Option String) (n m : Nat)
    (r : CSSRule) :
    transformRule none nbg n r = transformRule none nbg m r := rfl

theorem any_of_getProp_ne (ds : List (String × String)) (nm : String)
    (h : getProp ds nm ≠ "") : ds.any (fun d => d.1 == nm) = true := by
  rw [List.any_eq_true]
  exact ⟨(nm, getProp ds nm), getProp_mem ds nm h, by simp⟩

theorem not_mem_keys_of_any_false (ds : List (String × String)) (nm : String)
    (h : ds.any (fun d => d.1 == nm) = false) : nm ∉ ds.map Prod.fst := by
  rw [List.any_eq_false] at h
  intro hmem
  rw [List.mem_map] at hmem
  obtain ⟨d, hd, he⟩ := hmem
  apply h d hd
  simp [he]

theorem ne_empty_of_data_ne_nil {s : String} (h : s.data ≠ []) : s ≠ "" :=
  fun he => h (by rw [he])

theorem safeRule_parts (r : CSSRule) (hr : safeRule r = true) :
    r.selectorText.data ≠ [] ∧ (∀ c ∈ r.selectorText.data, selChar c = true) ∧
    (r.decls.map Prod.fst).Nodup ∧ ∀ d ∈ r.decls, safeDecl d = true := by
  unfold safeRule at hr
  simp only [Bool.and_eq_true, decide_eq_true_eq, List.all_eq_true,
    Bool.not_eq_true'] at hr
  obtain ⟨⟨⟨h1, h2⟩, h3⟩, h4⟩ := hr
  refine ⟨?_, h2, h3, h4⟩
  intro he
  rw [he] at h1
  simp at h1

theorem safeDecl_parts_ff (w : String)
    (hd : safeDecl ("font-family", w) = true) :
    ∀ f ∈ jsSplit ',' w,
      (jsTrim f).data ≠ [] ∧ ∀ c ∈ (jsTrim f).data, plainChar c = true := by
  unfold safeDecl at hd
  rw [if_pos (show ((("font-family", w).1 == "font-family") = true)
    from rfl)] at hd
  simp only [Bool.and_eq_true, List.all_eq_true, Bool.not_eq_true'] at hd
  intro f hf
  obtain ⟨hf1, hf2⟩ := hd.2 f hf
  refine ⟨?_, hf2⟩
  intro he
  rw [he] at hf1
  simp at hf1

theorem safeDecl_parts_other (p v : String) (hk : (p == "font-family") = false)
    (hd : safeDecl (p, v) = true) :
    p.data ≠ [] ∧ (∀ c ∈ p.data, plainChar c = true) ∧ v.data ≠ [] ∧
    (∀ c ∈ v.data, valChar c = true) ∧ trimL v.data = v.data := by
  unfold safeDecl at hd
  rw [if_neg (by simp [hk])] at hd
  simp only [Bool.and_eq_true, List.all_eq_true, Bool.not_eq_true',
    beq_iff_eq] at hd
  obtain ⟨⟨hp1, hp2⟩, ⟨⟨hv1, hv2⟩, hv3⟩, _⟩ := hd
  refine ⟨?_, hp2, ?_, hv2, hv3⟩
  · intro he; rw [he] at hp1; simp at hp1
  · intro he; rw [he] at hv1; simp at hv1

theorem safeDecl_ff_val_ne (v : String)
    (hd : safeDecl ("font-family", v) = true) : v ≠ "" := by
  intro he
  rw [he] at hd
  exact absurd hd (by decide)

/-- A safe declaration of a property other than `font-family` survives
minification verbatim and is parse-safe. -/
theorem minDeclSafe_of_safeDecl_other (d : String × String)
    (hk : (d.1 == "font-family") = false) (hd : safeDecl d = true) :
    minDeclSafe d ∧ minVal d.2 = d.2 := by
  obtain ⟨p, v⟩ := d
  obtain ⟨hp1, hp2, hv1, hv2, hv3⟩ := safeDecl_parts_other p v hk hd
  have hmv : minVal v = v := minVal_eq_self v fun c hc =>
    ⟨charClass_ne (hv2 c hc) (by decide), charClass_ne (hv2 c hc) (by decide)⟩
  refine ⟨⟨hp1, hp2, ?_⟩, hmv⟩
  rw [show ((p, v).2 : String) = v from rfl, hmv]
  exact ⟨hv1, hv3, fun c hc =>
    ⟨charClass_ne (hv2 c hc) (by decide), charClass_ne (hv2 c hc) (by decide),
     charClass_ne (hv2 c hc) (by decide), charClass_ne (hv2 c hc) (by decide)⟩⟩

/-- The escaping step on a safe rule's declarations: either there is no
`font-family` and nothing changes, or the declared value is rewritten to
the `", "`-join of its trimmed plain names. -/
theorem applyFontEscaping_safe (r : CSSRule) (hr : safeRule r = true) :
    (getProp r.decls "font-family" = "" ∧
      applyFontEscaping r.decls = r.decls) ∨
    (∃ names : List String, names ≠ [] ∧
      (∀ nm ∈ names, nm.data ≠ [] ∧ ∀ c ∈ nm.data, plainChar c = true) ∧
      (∀ nm ∈ names, ∀ c ∈ nm.data, c ≠ ',') ∧
      applyFontEscaping r.decls =
        setProperty r.decls "font-family" (jsJoin ", " names)) := by
  by_cases h : getProp r.decls "font-family" = ""
  · left
    refine ⟨h, ?_⟩
    unfold applyFontEscaping
    rw [if_neg (by simp [h])]
  · right
    have hmem := getProp_mem r.decls "font-family" h
    have hsd := (safeRule_parts r hr).2.2.2 _ hmem
    have hparts := safeDecl_parts_ff _ hsd
    refine ⟨(jsSplit ',' (getProp r.decls "font-family")).map jsTrim,
      by simp [jsSplit_ne_nil], ?_, ?_, ?_⟩
    · intro nm hnm
      rw [List.mem_map] at hnm
      obtain ⟨f, hf, he⟩ := hnm
      rw [← he]
      exact hparts f hf
    · intro nm hnm c hc
      rw [List.mem_map] at hnm
      obtain ⟨f, hf, he⟩ := hnm
      exact charClass_ne ((hparts f hf).2 c (he ▸ hc)) (by decide)
    · unfold applyFontEscaping
      rw [if_pos h, parseFontFamily_plain _ fun f hf => (hparts f hf).2]

theorem applyDivRules_none_div (sel : String) (ds : List (String × String))
    (h : sel.data.take 3 = ['d', 'i', 'v']) :
    applyDivRules none sel ds = setProperty ds "page-break-inside" "avoid" := by
  unfold applyDivRules
  rw [if_pos h]

theorem applyDivRules_none_other (sel : String) (ds : List (String × String))
    (h : sel.data.take 3 ≠ ['d', 'i', 'v']) :
    applyDivRules none sel ds = ds := by
  unfold applyDivRules
  rw [if_neg h]

theorem applyDivRules_fixpoint (sel : String)
    (tdecls : List (String × String))
    (hany : sel.data.take 3 = ['d', 'i', 'v'] →
      tdecls.any (fun d => d.1 == "page-break-inside") = true)
    (hval : sel.data.take 3 = ['d', 'i', 'v'] →
      ∀ d ∈ tdecls, d.1 = "page-break-inside" → d.2 = "avoid") :
    applyDivRules none sel tdecls = tdecls := by
  by_cases h : sel.data.take 3 = ['d', 'i', 'v']
  · rw [applyDivRules_none_div _ _ h]
    exact setProperty_update_eq _ _ _ (hany h) (hval h)
  · exact applyDivRules_none_other _ _ h

/-- A rule transformed from a safe rule has the shape the parser
round-trip needs, provided its declarations are nonempty. -/
theorem transform_minRuleSafe (r : CSSRule) (hr : safeRule r = true) (n : Nat)
    (hne : (transformRule none none n r).decls ≠ []) :
    minRuleSafe (transformRule none none n r) := by
  obtain ⟨hs_ne, hs_sel, hnd, hall⟩ := safeRule_parts r hr
  have htd : (transformRule none none n r).decls =
      applyDivRules none r.selectorText (applyFontEscaping r.decls) := rfl
  have htsel : (transformRule none none n r).selectorText =
      r.selectorText := rfl
  -- facts about the escaping step
  have hE : (applyFontEscaping r.decls).map Prod.fst = r.decls.map Prod.fst ∧
      ∀ d ∈ applyFontEscaping r.decls, minDeclSafe d := by
    rcases applyFontEscaping_safe r hr with ⟨hget, he2⟩ |
      ⟨names, hne_names, hplain, hcomma, he2⟩
    · rw [he2]
      refine ⟨rfl, ?_⟩
      intro d hd
      have hk : (d.1 == "font-family") = false := by
        by_contra hk'
        rw [Bool.not_eq_false, beq_iff_eq] at hk'
        have hget_d : getProp r.decls d.1 = d.2 :=
          getProp_eq_of_mem_nodup r.decls d hd hnd
        have hsd := hall d hd
        have hd' : safeDecl ("font-family", d.2) = true := by
          rw [← hk']
          obtain ⟨d1, d2⟩ := d
          exact hsd
        have := safeDecl_ff_val_ne d.2 hd'
        rw [hk'] at hget_d
        rw [hget_d] at hget
        exact this hget
      exact (minDeclSafe_of_safeDecl_other d hk (hall d hd)).1
    · have hget : getProp r.decls "font-family" ≠ "" := by
        by_contra hget0
        rw [show applyFontEscaping r.decls =
          (if getProp r.decls "font-family" ≠ "" then
            setProperty r.decls "font-family"
              (parseFontFamily (getProp r.decls "font-family"))
          else r.decls) from rfl, if_neg (by simp [hget0])] at he2
        -- he2 : r.decls = setProperty ... ; compare font-family values
        have h1 : getProp r.decls "font-family" =
            jsJoin ", " names := by
          conv_lhs => rw [he2]
          exact getProp_setProperty_self _ _ _
        cases names with
        | nil => exact hne_names rfl
        | cons n0 tl =>
          have : (jsJoin ", " (n0 :: tl)).data ≠ [] :=
            jsJoin_data_ne_nil ", " n0 tl (hplain n0 (by simp)).1
          rw [hget0] at h1
          exact this (by rw [← h1])
      refine ⟨?_, ?_⟩
      · rw [he2]
        exact keys_setProperty_mem _ _ _
          (any_of_getProp_ne _ _ hget)
      · intro d hd
        rw [he2] at hd
        rcases mem_setProperty _ _ _ d hd with ⟨hd1, hd2⟩ | hd1
        · exact (minDeclSafe_of_safeDecl_other d (by simp [hd2])
            (hall d hd1)).1
        · rw [hd1]
          refine ⟨?_, ?_, ?_⟩
          · show ("font-family" : String).data ≠ []
            decide
          · show ∀ c ∈ ("font-family" : String).data, plainChar c = true
            decide
          rw [show (("font-family", jsJoin ", " names).2 : String) =
            jsJoin ", " names from rfl]
          rw [minVal_jsJoin_plain names hne_names hplain]
          have hchars : ∀ c ∈ (jsJoin "," names).data,
              plainChar c = true ∨ c = ',' := by
            intro c hc
            rcases jsJoin_data_mem "," names c hc with h1 | ⟨nm, hnm, hcnm⟩
            · right; simpa using h1
            · left; exact (hplain nm hnm).2 c hcnm
          cases names with
          | nil => exact absurd rfl hne_names
          | cons n0 tl =>
            refine ⟨jsJoin_data_ne_nil "," n0 tl (hplain n0 (by simp)).1,
              ?_, ?_⟩
            · apply trimL_eq_self
              intro c hc
              rcases hchars c hc with h1 | h1
              · exact isJsWs_eq_false_of_plain h1
              · rw [h1]; decide
            · intro c hc
              rcases hchars c hc with h1 | h1
              · exact ⟨charClass_ne h1 (by decide), charClass_ne h1 (by decide),
                  charClass_ne h1 (by decide), charClass_ne h1 (by decide)⟩
              · rw [h1]
                refine ⟨by decide, by decide, by decide, by decide⟩
  refine ⟨by rw [htsel]; exact hs_ne, by rw [htsel]; exact hs_sel, hne, ?_, ?_⟩
  · -- keys of the transformed declarations are distinct
    rw [htd]
    by_cases hdiv : r.selectorText.data.take 3 = ['d', 'i', 'v']
    · rw [applyDivRules_none_div _ _ hdiv]
      by_cases hpbi : (applyFontEscaping r.decls).any
          (fun d => d.1 == "page-break-inside") = true
      · rw [keys_setProperty_mem _ _ _ hpbi, hE.1]
        exact hnd
      · rw [Bool.not_eq_true] at hpbi
        rw [keys_setProperty_fresh _ _ _ hpbi]
        rw [List.nodup_append]
        refine ⟨by rw [hE.1]; exact hnd, by simp, ?_⟩
        intro a ha
        have := not_mem_keys_of_any_false _ _ hpbi
        simp only [List.mem_singleton]
        intro he
        rw [he] at ha
        exact this ha
    · rw [applyDivRules_none_other _ _ hdiv, hE.1]
      exact hnd
  · -- every transformed declaration is parse-safe
    rw [htd]
    intro d hd
    by_cases hdiv : r.selectorText.data.take 3 = ['d', 'i', 'v']
    · rw [applyDivRules_none_div _ _ hdiv] at hd
      rcases mem_setProperty _ _ _ d hd with ⟨hd1, _⟩ | hd1
      · exact hE.2 d hd1
      · rw [hd1]
        refine ⟨by decide, by decide, by decide, by decide, by decide⟩
    · rw [applyDivRules_none_other _ _ hdiv] at hd
      exact hE.2 d hd

theorem getProp_applyDivRules_ff (nbg : Option String) (sel : String)
    (ds : List (String × String)) :
    getProp (applyDivRules nbg sel ds) "font-family" =
      getProp ds "font-family" := by
  unfold applyDivRules
  by_cases hsel : sel.data.take 3 = ['d', 'i', 'v']
  · simp only [hsel, if_true]
    cases nbg with
    | none => exact getProp_setProperty_ne _ _ _ _ (by decide)
    | some b =>
      rw [getProp_setProperty_ne _ _ _ _ (by decide)]
      exact getProp_setProperty_ne _ _ _ _ (by decide)
  · rw [if_neg hsel]

/-- Running the no-override transform on the minified image of an
already-transformed safe rule gives the transformed rule back. -/
theorem transform_mv_fixpoint (r : CSSRule) (hr : safeRule r = true)
    (n m : Nat) :
    transformRule none none m (mvRule (transformRule none none n r)) =
      transformRule none none n r := by
  obtain ⟨hs_ne, hs_sel, hnd, hall⟩ := safeRule_parts r hr
  have htd : (transformRule none none n r).decls =
      applyDivRules none r.selectorText (applyFontEscaping r.decls) := rfl
  have hpbi_any : r.selectorText.data.take 3 = ['d', 'i', 'v'] →
      (transformRule none none n r).decls.any
        (fun d => d.1 == "page-break-inside") = true := by
    intro hdiv
    apply any_of_getProp_ne
    rw [htd, applyDivRules_none_div _ _ hdiv, getProp_setProperty_self]
    decide
  have hpbi_val : r.selectorText.data.take 3 = ['d', 'i', 'v'] →
      ∀ d ∈ (transformRule none none n r).decls,
        d.1 = "page-break-inside" → d.2 = "avoid" := by
    intro hdiv d hd hk
    rw [htd, applyDivRules_none_div _ _ hdiv] at hd
    rw [setProperty_key_val _ _ _ d hd hk]
  rcases applyFontEscaping_safe r hr with ⟨hget, he2⟩ |
    ⟨names, hne_names, hplain, hcomma, he2⟩
  · -- no declared font-family: every declaration is minVal-fixed
    have hnoff : ∀ d ∈ r.decls, (d.1 == "font-family") = false := by
      intro d hd
      by_contra hk'
      rw [Bool.not_eq_false, beq_iff_eq] at hk'
      have hget_d : getProp r.decls d.1 = d.2 :=
        getProp_eq_of_mem_nodup r.decls d hd hnd
      have hd' : safeDecl ("font-family", d.2) = true := by
        rw [← hk']
        obtain ⟨d1, d2⟩ := d
        exact hall _ hd
      rw [hk'] at hget_d
      exact safeDecl_ff_val_ne d.2 hd' (hget_d.symm.trans hget)
    have hfix : ∀ d ∈ (transformRule none none n r).decls,
        minVal d.2 = d.2 := by
      intro d hd
      rw [htd, he2] at hd
      by_cases hdiv : r.selectorText.data.take 3 = ['d', 'i', 'v']
      · rw [applyDivRules_none_div _ _ hdiv] at hd
        rcases mem_setProperty _ _ _ d hd with ⟨hd1, _⟩ | hd1
        · exact (minDeclSafe_of_safeDecl_other d (hnoff d hd1) (hall d hd1)).2
        · rw [hd1]
          decide
      · rw [applyDivRules_none_other _ _ hdiv] at hd
        exact (minDeclSafe_of_safeDecl_other d (hnoff d hd) (hall d hd)).2
    have hmap : (transformRule none none n r).decls.map
        (fun d => (d.1, minVal d.2)) = (transformRule none none n r).decls := by
      have h1 : ∀ d ∈ (transformRule none none n r).decls,
          (fun d => (d.1, minVal d.2)) d = id d := by
        intro d hd
        show (d.1, minVal d.2) = d
        rw [hfix d hd]
      rw [List.map_congr_left h1, List.map_id]
    have hgetT : getProp (transformRule none none n r).decls
        "font-family" = "" := by
      rw [htd, getProp_applyDivRules_ff, he2]
      exact hget
    have hE2 : applyFontEscaping (transformRule none none n r).decls =
        (transformRule none none n r).decls := by
      unfold applyFontEscaping
      rw [if_neg (by simp [hgetT])]
    calc transformRule none none m (mvRule (transformRule none none n r))
        = ⟨r.selectorText, applyDivRules none r.selectorText
            (applyFontEscaping ((transformRule none none n r).decls.map
              (fun d => (d.1, minVal d.2))))⟩ := rfl
      _ = transformRule none none n r := by
          rw [hmap, hE2, applyDivRules_fixpoint _ _ hpbi_any hpbi_val]
          rfl
  · -- a declared font-family, already escaped to a plain comma-join
    have hgetT : getProp (transformRule none none n r).decls "font-family" =
        jsJoin ", " names := by
      rw [htd, getProp_applyDivRules_ff, he2, getProp_setProperty_self]
    have hjoin_ne : (jsJoin "," names).data ≠ [] := by
      cases names with
      | nil => exact absurd rfl hne_names
      | cons n0 tl => exact jsJoin_data_ne_nil "," n0 tl (hplain n0 (by simp)).1
    have hjoin_ne' : jsJoin "," names ≠ "" := ne_empty_of_data_ne_nil hjoin_ne
    have hffT : ∀ d ∈ (transformRule none none n r).decls,
        d.1 = "font-family" → d = ("font-family", jsJoin ", " names) := by
      intro d hd hk
      rw [htd, he2] at hd
      by_cases hdiv : r.selectorText.data.take 3 = ['d', 'i', 'v']
      · rw [applyDivRules_none_div _ _ hdiv] at hd
        rcases mem_setProperty _ _ _ d hd with ⟨hd1, _⟩ | hd1
        · exact setProperty_key_val _ _ _ d hd1 hk
        · rw [hd1] at hk
          exact absurd hk (by decide)
      · rw [applyDivRules_none_other _ _ hdiv] at hd
        exact setProperty_key_val _ _ _ d hd hk
    have hfixT : ∀ d ∈ (transformRule none none n r).decls,
        d.1 ≠ "font-family" → minVal d.2 = d.2 := by
      intro d hd hk
      rw [htd, he2] at hd
      by_cases hdiv : r.selectorText.data.take 3 = ['d', 'i', 'v']
      · rw [applyDivRules_none_div _ _ hdiv] at hd
        rcases mem_setProperty _ _ _ d hd with ⟨hd1, _⟩ | hd1
        · rcases mem_setProperty _ _ _ d hd1 with ⟨hd2, _⟩ | hd2
          · exact (minDeclSafe_of_safeDecl_other d (by simp [hk])
              (hall d hd2)).2
          · rw [hd2] at hk
            exact absurd rfl hk
        · rw [hd1]
          decide
      · rw [applyDivRules_none_other _ _ hdiv] at hd
        rcases mem_setProperty _ _ _ d hd with ⟨hd2, _⟩ | hd2
        · exact (minDeclSafe_of_safeDecl_other d (by simp [hk])
            (hall d hd2)).2
        · rw [hd2] at hk
          exact absurd rfl hk
    have hmin : minVal (jsJoin ", " names) = jsJoin "," names :=
      minVal_jsJoin_plain names hne_names hplain
    have hsplit : jsSplit ',' (jsJoin "," names) = names :=
      jsSplit_jsJoin_comma names hne_names hcomma
    have hpff : parseFontFamily (jsJoin "," names) = jsJoin ", " names := by
      have hcond : ∀ f ∈ jsSplit ',' (jsJoin "," names),
          ∀ c ∈ (jsTrim f).data, plainChar c = true := by
        intro f hf c hc
        rw [hsplit] at hf
        rw [jsTrim_eq_self_of_plain (hplain f hf).2] at hc
        exact (hplain f hf).2 c hc
      rw [parseFontFamily_plain _ hcond, hsplit]
      congr 1
      have h1 : ∀ a ∈ names, jsTrim a = id a := fun a ha =>
        jsTrim_eq_self_of_plain (hplain a ha).2
      rw [List.map_congr_left h1, List.map_id]
    have hmapget : getProp ((transformRule none none n r).decls.map
        (fun d => (d.1, minVal d.2))) "font-family" = jsJoin "," names := by
      rw [getProp_map_minVal, hgetT, hmin]
    have hany : ((transformRule none none n r).decls.map
        (fun d => (d.1, minVal d.2))).any
          (fun d => d.1 == "font-family") = true :=
      any_of_getProp_ne _ _ (by rw [hmapget]; exact hjoin_ne')
    have hcond' : getProp ((transformRule none none n r).decls.map
        (fun d => (d.1, minVal d.2))) "font-family" ≠ "" := by
      rw [hmapget]
      exact hjoin_ne'
    have hE2 : applyFontEscaping ((transformRule none none n r).decls.map
        (fun d => (d.1, minVal d.2))) = (transformRule none none n r).decls := by
      unfold applyFontEscaping
      rw [if_pos hcond', hmapget, hpff]
      unfold setProperty
      rw [if_pos hany, List.map_map]
      have h2 : ∀ d ∈ (transformRule none none n r).decls,
          ((fun e : String × String =>
              if e.1 == "font-family" then ("font-family", jsJoin ", " names)
              else e) ∘ (fun d => (d.1, minVal d.2))) d = id d := by
        intro d hd
        show (if ((d.1, minVal d.2).1 == "font-family")
            then (("font-family" : String), jsJoin ", " names)
            else (d.1, minVal d.2)) = d
        by_cases hk : d.1 = "font-family"
        · rw [if_pos (by simp [hk])]
          exact (hffT d hd hk).symm
        · rw [if_neg (by simp [hk]), hfixT d hd hk]
      rw [List.map_congr_left h2, List.map_id]
    calc transformRule none none m (mvRule (transformRule none none n r))
        = ⟨r.selectorText, applyDivRules none r.selectorText
            (applyFontEscaping ((transformRule none none n r).decls.map
              (fun d => (d.1, minVal d.2))))⟩ := rfl
      _ = transformRule none none n r := by
          rw [hE2, applyDivRules_fixpoint _ _ hpbi_any hpbi_val]
          rfl

theorem concatL_singleton (s : String) : concatL [s] = s :=
  String.append_empty s

theorem tidyCss_none (doc : HtmlDoc) (o : TidyOpts)
    (hf : truthy o.fonts = none) (hb : truthy o.backgroundColor = none) :
    tidyCss doc o = ⟨[minSer ((cssParse (concatL doc.styles)).map
      (transformRule none none doc.styles.length))], doc.rest⟩ := by
  unfold tidyCss
  rw [hf, hb]
  simp

theorem tidyCss_none_mk (ss : List String) (rest : String) (o : TidyOpts)
    (hf : truthy o.fonts = none) (hb : truthy o.backgroundColor = none) :
    tidyCss ⟨ss, rest⟩ o = ⟨[minSer ((cssParse (concatL ss)).map
      (transformRule none none ss.length))], rest⟩ :=
  tidyCss_none ⟨ss, rest⟩ o hf hb

/-! ## Claims about the request lifecycle -/

/-- C1: after the `onSend` cleanup of a request has run — for a request that
was rejected before staging, one that converted successfully, one that
failed conversion, and one that was cancelled mid-flight alike — no file in
the temp directory is left with the workspace's `directory/id` name, given
that the fresh workspace id matched no pre-existing file. -/
theorem claim_C1_cleanup_complete (fs0 : FS) (dir id : String)
    (body : List Nat) (convertOk cancelled : Bool)
    (h : fs0.all (fun p => !strStartsWith (joinSafe dir id) p) = true) :
    (processRequest fs0 dir id body convertOk cancelled).fs.all
      (fun p => !strStartsWith (joinSafe dir id) p) = true := by
  unfold processRequest
  cases hc : contentTypeParser body with
  | error e => simpa [onSendCleanup] using h
  | ok b =>
    simp only [onSendCleanup, unlinkAll, globSync, List.all_eq_true]
    intro p hp
    rw [List.mem_filter] at hp
    obtain ⟨hp1, hp2⟩ := hp
    by_contra hpre
    have hpre' : strStartsWith (joinSafe dir id) p = true := by
      revert hpre; cases strStartsWith (joinSafe dir id) p <;> simp
    have hmem : p ∈ (writeFile fs0 (joinSafe dir (id ++ ".rtf"))).filter
        (fun q => strStartsWith (joinSafe dir id) q) := by
      rw [List.mem_filter]; exact ⟨hp1, hpre'⟩
    have helem := List.elem_eq_true_of_mem hmem
    simp at hp2
    rcases hp2 with h2 | h2
    · exact h2 hp1
    · rw [hpre'] at h2; cases h2

theorem claim_C1_witness :
    (["t/old.txt"].all
      (fun p => !strStartsWith (joinSafe "t" "abc") p) = true) ∧
    (processRequest ["t/old.txt"] "t" "abc"
        [0x7B, 0x5C, 0x72, 0x74, 0x66, 0x31] true false).fs.all
      (fun p => !strStartsWith (joinSafe "t" "abc") p) = true :=
  ⟨by decide,
   claim_C1_cleanup_complete ["t/old.txt"] "t" "abc"
     [0x7B, 0x5C, 0x72, 0x74, 0x66, 0x31] true false (by decide)⟩

/-- C2: a request body that is empty, absent, or without the RTF
magic-number signature fails with 415 at the content-sniffing gate, and the
temp directory is exactly as it was: nothing is staged. -/
theorem claim_C2_sniff_gate (fs0 : FS) (dir id : String) (body : List Nat)
    (convertOk cancelled : Bool)
    (h : rtfMagic.isPrefixOf body = false) :
    processRequest fs0 dir id body convertOk cancelled =
      { fs := fs0, status := 415 } := by
  unfold processRequest contentTypeParser fromBufferMime
  simp [h, onSendCleanup]

theorem claim_C2_witness :
    (rtfMagic.isPrefixOf ([] : List Nat) = false) ∧
    processRequest ["t/abc.rtf"] "t" "abc" [] true false =
      { fs := ["t/abc.rtf"], status := 415 } :=
  ⟨by decide, claim_C2_sniff_gate ["t/abc.rtf"] "t" "abc" [] true false (by decide)⟩

/-- C8: on every staged request — converted or failed, cancelled or not —
the cleanup event occurs exactly once; it occurs after the payload
hand-off, never before; a request rejected before staging has no workspace
and no cleanup; and on an uncancelled request the response is still
delivered, after the deletion completes. -/
theorem claim_C8_cleanup_once_after_handoff :
    ∀ convertOk cancelled : Bool,
      (requestEvents true convertOk cancelled).count .cleanup = 1 ∧
      (requestEvents false convertOk cancelled).count .cleanup = 0 ∧
      (requestEvents true convertOk cancelled).indexOf .payloadHandoff <
        (requestEvents true convertOk cancelled).indexOf .cleanup ∧
      (requestEvents true convertOk false).count .responseSent = 1 ∧
      (requestEvents true convertOk false).indexOf .cleanup <
        (requestEvents true convertOk false).indexOf .responseSent := by
  intro convertOk cancelled
  cases convertOk <;> cases cancelled <;> decide

/-! ## Claims about tidyCss -/

/-- C3 (evaluation at the failing input): the single-pass removal of
`</style>` reconstitutes the sequence from the crafted font name
`x</sty</style>le>`; the tidied output's style text contains a literal
`</style>`, contradicting the claim's guarantee. -/
theorem claim_C3_style_close_reconstituted :
    parseFont "</sty</style>le>" = "\"</style>\"" ∧
    containsSeq "</style>"
      ((tidyCss ⟨["p\x7bfont-family:x</sty</style>le>\x7d"], "R"⟩
        ⟨none, none⟩).styles.headD "") = true := by
  constructor
  · rfl
  · rfl

/-- C4 (counterexample): a font name that needs quoting is re-escaped by a
second run — `Weird Font` becomes `"Weird Font"`, whose quotes the second
run escapes again — so tidyCss is not idempotent. -/
theorem claim_C4_counterexample :
    tidyCss (tidyCss ⟨["p\x7bfont-family:Weird Font\x7d"], "R"⟩ ⟨none, none⟩)
        ⟨none, none⟩ ≠
      tidyCss ⟨["p\x7bfont-family:Weird Font\x7d"], "R"⟩ ⟨none, none⟩ := by
  decide

/-- C4 (amended): with no font or background override, `tidyCss` is
idempotent on every document whose parsed rules stay in the plain
fragment (safeRules): the second run re-derives exactly the first run's
combined style element. -/
theorem claim_C4_idempotent_on_plain (d : HtmlDoc) (o : TidyOpts)
    (hf : truthy o.fonts = none) (hb : truthy o.backgroundColor = none)
    (hsafe : safeRules (cssParse (concatL d.styles)) = true) :
    tidyCss (tidyCss d o) o = tidyCss d o := by
  have hsafe' : ∀ r ∈ cssParse (concatL d.styles), safeRule r = true := by
    unfold safeRules at hsafe
    rw [List.all_eq_true] at hsafe
    exact hsafe
  rw [tidyCss_none d o hf hb]
  set T := (cssParse (concatL d.styles)).map
    (transformRule none none d.styles.length) with hT
  rw [tidyCss_none_mk [minSer T] d.rest o hf hb, concatL_singleton,
    List.length_singleton]
  conv_lhs => rw [minSer_filter T]
  set K := T.filter (fun r => !r.decls.isEmpty) with hK2
  have hKsafe : ∀ r ∈ K, minRuleSafe r := by
    intro r hr
    rw [hK2, List.mem_filter] at hr
    obtain ⟨hrT, hrne⟩ := hr
    rw [hT, List.mem_map] at hrT
    obtain ⟨r0, hr0, rfl⟩ := hrT
    apply transform_minRuleSafe r0 (hsafe' r0 hr0)
    simpa using hrne
  rw [cssParse_minSer K hKsafe, List.map_map]
  have h1 : ∀ r ∈ K,
      (transformRule none none 1 ∘ mvRule) r = id r := by
    intro r hr
    rw [hK2, List.mem_filter] at hr
    obtain ⟨hrT, _⟩ := hr
    rw [hT, List.mem_map] at hrT
    obtain ⟨r0, hr0, rfl⟩ := hrT
    exact transform_mv_fixpoint r0 (hsafe' r0 hr0) d.styles.length 1
  rw [List.map_congr_left h1, List.map_id, hK2, ← minSer_filter]

/-- C4 witness: a two-style-element document in the plain fragment on
which the amended idempotence theorem evaluates. -/
theorem claim_C4_witness :
    tidyCss (tidyCss ⟨["div \x7b color: red \x7d",
        "p \x7b font-family: Arial, serif; margin: x \x7d"], "R"⟩
        ⟨none, none⟩) ⟨none, none⟩ =
      tidyCss ⟨["div \x7b color: red \x7d",
        "p \x7b font-family: Arial, serif; margin: x \x7d"], "R"⟩
        ⟨none, none⟩ :=
  claim_C4_idempotent_on_plain
    ⟨["div \x7b color: red \x7d",
      "p \x7b font-family: Arial, serif; margin: x \x7d"], "R"⟩
    ⟨none, none⟩ rfl rfl (by decide)

/-- C5 (counterexample): the already-quoted value `Arial, "My Weird/Font"`
is not left unchanged — the quoted name still contains characters outside
`[A-Za-z-]`, so it is escaped again, quotes included. -/
theorem claim_C5_counterexample :
    parseFontFamily "Arial, \"My Weird/Font\"" ≠ "Arial, \"My Weird/Font\"" ∧
    parseFontFamily "Arial, \"My Weird/Font\"" =
      "Arial, \"\\\"My Weird/Font\\\"\"" := by
  constructor
  · decide
  · rfl

/-- C5 (amended): a name of letters and hyphens only is used unescaped; the
unquoted multi-word name is quoted (`Arial, Weird Font` →
`Arial, "Weird Font"`); an already-quoted name is escaped and quoted again
rather than left unchanged. -/
theorem claim_C5_font_family_quoting :
    (∀ s : String, (∀ c ∈ s.data, (c.isAlpha || c = '-') = true) →
      parseFont s = s) ∧
    parseFontFamily "Arial, Weird Font" = "Arial, \"Weird Font\"" ∧
    parseFontFamily "Arial, \"My Weird/Font\"" =
      "Arial, \"\\\"My Weird/Font\\\"\"" := by
  refine ⟨?_, by rfl, by rfl⟩
  intro s h
  have hws : ∀ c ∈ s.data, isJsWs c = false :=
    fun c hc => isJsWs_eq_false_of_alpha (h c hc)
  have htrim : jsTrim s = s := jsTrim_eq_self hws
  have hna : testNonAlpha s = false := by
    simp only [testNonAlpha, List.any_eq_false]
    intro c hc
    simp [h c hc]
  unfold parseFont
  rw [htrim, hna]
  simp

theorem claim_C5_witness : parseFont "sans-serif" = "sans-serif" :=
  claim_C5_font_family_quoting.1 "sans-serif" (by decide)

/-- C6: two style blocks `div{color:red}` and `p{color:blue}` tidy to a
document with exactly one style element, holding both rules with
`page-break-inside:avoid` merged into the existing `div` rule rather than
emitted as a second `div` rule. -/
theorem claim_C6_two_blocks_merged :
    ∀ rest : String,
      tidyCss ⟨["div\x7bcolor:red\x7d", "p\x7bcolor:blue\x7d"], rest⟩
          ⟨none, none⟩ =
        ⟨["div\x7bcolor:red;page-break-inside:avoid\x7dp\x7bcolor:blue\x7d"],
          rest⟩ := by
  intro rest
  rfl

/-- C7 (counterexample): with a font override, in a document whose single
style element holds two rules, the `p` rule declares no font-family and is
not the sole rule — yet the override is applied to it, because the source
tests `styles.length === 1` (one style element), not "sole rule". -/
theorem claim_C7_counterexample :
    (cssParse "div\x7bcolor:red\x7dp\x7bmargin:zero\x7d").length = 2 ∧
    (cssParse "div\x7bcolor:red\x7dp\x7bmargin:zero\x7d")[1]? =
      some ⟨"p", [("margin", "zero")]⟩ ∧
    tidyCss ⟨["div\x7bcolor:red\x7dp\x7bmargin:zero\x7d"], "R"⟩
        ⟨some "Arial", none⟩ =
      ⟨["div\x7bcolor:red;font-family:Arial;page-break-inside:avoid\x7dp\x7bmargin:zero;font-family:Arial\x7d"],
        "R"⟩ := by
  refine ⟨by rfl, by rfl, by rfl⟩

/-- C7 (amended): with a font override, a rule receives the override exactly
when it already declares `font-family` or the document holds exactly one
style element (`styles.length === 1`); a rule without `font-family` in a
document with several style elements keeps none. -/
theorem claim_C7_override_condition (f : String) (nbg : Option String)
    (numStyles : Nat) (r : CSSRule) :
    (getProp r.decls "font-family" = "" → numStyles ≠ 1 →
      getProp (transformRule (some f) nbg numStyles r).decls "font-family"
        = "") ∧
    ((getProp r.decls "font-family" ≠ "" ∨ numStyles = 1) →
      getProp (transformRule (some f) nbg numStyles r).decls "font-family"
        = parseFontFamily f) := by
  constructor
  · intro h0 hn
    have h1 : applyFontOverride (some f) numStyles r.decls = r.decls := by
      show (if getProp r.decls "font-family" ≠ "" ∨ numStyles = 1 then
        setProperty r.decls "font-family" f else r.decls) = r.decls
      rw [if_neg]
      push_neg
      exact ⟨by simp [h0], hn⟩
    have h2 : applyFontEscaping r.decls = r.decls := by
      unfold applyFontEscaping
      rw [if_neg]
      simp [h0]
    unfold transformRule
    rw [h1, h2, getProp_applyDivRules_ff, h0]
  · intro hor
    have h1 : applyFontOverride (some f) numStyles r.decls =
        setProperty r.decls "font-family" f := by
      show (if getProp r.decls "font-family" ≠ "" ∨ numStyles = 1 then
        setProperty r.decls "font-family" f else r.decls) =
        setProperty r.decls "font-family" f
      rw [if_pos hor]
    by_cases hf0 : f = ""
    · subst hf0
      have hset : getProp (setProperty r.decls "font-family" "") "font-family"
          = "" := getProp_setProperty_self _ _ _
      have h2 : applyFontEscaping (setProperty r.decls "font-family" "") =
          setProperty r.decls "font-family" "" := by
        unfold applyFontEscaping
        rw [if_neg]
        simp [hset]
      unfold transformRule
      rw [h1, h2, getProp_applyDivRules_ff, hset]
      rfl
    · have hset : getProp (setProperty r.decls "font-family" f) "font-family"
          = f := getProp_setProperty_self _ _ _
      have h2 : applyFontEscaping (setProperty r.decls "font-family" f) =
          setProperty (setProperty r.decls "font-family" f) "font-family"
            (parseFontFamily f) := by
        unfold applyFontEscaping
        rw [if_pos]
        · rw [hset]
        · rw [hset]; exact hf0
      unfold transformRule
      rw [h1, h2, getProp_applyDivRules_ff, getProp_setProperty_self]

theorem claim_C7_witness :
    getProp (transformRule (some "Arial") none 2 ⟨"p", []⟩).decls
      "font-family" = "" :=
  (claim_C7_override_condition "Arial" none 2 ⟨"p", []⟩).1 rfl (by decide)

/-- C9 (counterexample): on a document with no style element at all and no
override, tidyCss is not the identity: the combined style element is still
created and appended, so the output gains an empty `<style>` element. -/
theorem claim_C9_counterexample :
    tidyCss ⟨[], "<p>x</p>"⟩ ⟨none, none⟩ ≠
      (⟨[], "<p>x</p>"⟩ : HtmlDoc) := by
  decide

/-- C9 (amended): with no style rules and no override, tidyCss changes
nothing except the style elements themselves: the rest of the document is
untouched and the output holds exactly one empty style element — appended
even when no style element existed, and absorbing an existing empty one,
of which it is a fixpoint. -/
theorem claim_C9_empty_tidy (rest : String) :
    tidyCss ⟨[], rest⟩ ⟨none, none⟩ = ⟨[""], rest⟩ ∧
    tidyCss ⟨[""], rest⟩ ⟨none, none⟩ = ⟨[""], rest⟩ :=
  ⟨rfl, rfl⟩

/-- C10: the font-family split is quote-blind. A double-quoted family name
containing a comma is split at that comma, and each fragment — still
carrying one of the original quote characters, hence needing escaping — is
escaped and double-quoted as a separate family name. -/
theorem claim_C10_split_ignores_quotes (a b : String)
    (ha : ∀ c ∈ a.data, c ≠ ',' ∧ c ≠ '<')
    (hb : ∀ c ∈ b.data, c ≠ ',' ∧ c ≠ '<') :
    parseFontFamily ("\"" ++ a ++ "," ++ b ++ "\"") =
      cssEsc (jsTrim ("\"" ++ a)) ++ ", " ++ cssEsc (jsTrim (b ++ "\"")) := by
  unfold parseFontFamily jsSplit
  have hdata : ("\"" ++ a ++ "," ++ b ++ "\"").data
      = ('"' :: a.data) ++ ',' :: (b.data ++ ['"']) := by
    show ('"' :: a.data ++ [','] ++ b.data ++ ['"'] : List Char) = _
    simp
  rw [hdata]
  rw [splitCharAux_sep_chunk ',' ('"' :: a.data)
    (by intro c hc
        rcases List.mem_cons.mp hc with h | h
        · rw [h]; decide
        · exact (ha c h).1) (b.data ++ ['"']) []]
  rw [splitCharAux_no_sep ',' (b.data ++ ['"'])
    (by intro c hc
        rcases List.mem_append.mp hc with h | h
        · exact (hb c h).1
        · simp at h; rw [h]; decide) []]
  simp only [List.reverse_nil, List.nil_append, List.map_cons, List.map_nil]
  have e1 : (⟨'"' :: a.data⟩ : String) = "\"" ++ a := rfl
  have e2 : (⟨b.data ++ ['"']⟩ : String) = b ++ "\"" := rfl
  rw [e1, e2, parseFont_quoted_head a (fun c hc => (ha c hc).2),
    parseFont_quoted_last b (fun c hc => (hb c hc).2)]
  rfl

theorem claim_C10_witness :
    parseFontFamily "\"Foo, Bar\"" = "\"\\\"Foo\", \"Bar\\\"\"" := by
  have h := claim_C10_split_ignores_quotes "Foo" " Bar" (by decide) (by decide)
  have e : ("\"" ++ "Foo" ++ "," ++ " Bar" ++ "\"" : String) = "\"Foo, Bar\"" :=
    rfl
  rw [e] at h
  rw [h]
  decide

end Docsmith
